import Mathlib

/-!
Verification development for the docopt-style command-line grammar engine
(`src/docopt/__init__.py`, `src/docopt/elements.py`, `src/docopt/parsers.py`).

The Python code is shallowly embedded: Python objects carrying a dynamic
`value` attribute become values of the inductive type `PyValue`; the pattern
tree (`Pattern`/`LeafPattern`/`BranchPattern` and their subclasses) becomes the
mutual inductive `Pattern`/`Patterns`; rebinding of the `left`/`collected`
list variables during matching is rendered as explicit state passing.  This
purification is exact for the parsing and normalization pipeline, but the
matcher additionally mutates leaf *objects* in place (`match.value = 1`,
`same_name[0].value += 1`), and after identity unification those objects are
aliased across `left`, `collected` and the sibling evaluations of `Either`;
the pure matcher below does not model that aliasing, so it coincides with the
engine only on runs in which no accumulator-typed leaf is reached through an
aliased position (the repository itself documents the divergence: for
`[-v | --verbose]...` with `-vvv` the engine reports 5 where 3 is intended).
Python's `==` on patterns compares `repr` strings, which print the class name,
the name and the value of every node; on the embedded data this coincides with
structural equality, so `==`-based operations (`list.count`, `list.remove`,
`in`) are rendered with decidable structural equality.
-/

deriving instance DecidableEq for Except

namespace Docopt

/-- Dynamic values carried by the `value` attribute of pattern objects:
`None`, booleans, strings, integers and lists of strings. -/
inductive PyValue where
  | none
  | bool (b : Bool)
  | str (s : String)
  | int (n : Int)
  | list (xs : List String)
  deriving DecidableEq, Repr

/-- Truthiness of a `PyValue`, as Python's `bool(...)` coercion. -/
def PyValue.truthy : PyValue → Bool
  | .none => false
  | .bool b => b
  | .str s => ¬s.isEmpty
  | .int n => n ≠ 0
  | .list xs => ¬xs.isEmpty

/-- Python `type(v) == int` (strict: `True`/`False` have type `bool`, not `int`). -/
def PyValue.typeIsInt : PyValue → Bool
  | .int _ => true
  | _ => false

/-- Python `type(v) == list`. -/
def PyValue.typeIsList : PyValue → Bool
  | .list _ => true
  | _ => false

/-- Python `isinstance(v, int)`: `bool` is a subclass of `int`. -/
def PyValue.isInstInt : PyValue → Bool
  | .int _ => true
  | .bool _ => true
  | _ => false

/-- Python `v + 1` on an `isinstance(v, int)` value (`True + 1 == 2`). -/
def PyValue.incr : PyValue → PyValue
  | .int n => .int (n + 1)
  | .bool b => .int ((if b then 1 else 0) + 1)
  | v => v

/-- The four fields of the `Option` leaf class in `elements.py`. -/
structure OptionP where
  short : Option String
  long : Option String
  argcount : Nat
  value : PyValue
  deriving DecidableEq, Repr

/-- Constructor logic of `Option.__init__`: the stored value is `None` when the
passed value is (identically) `False` and `argcount` is non-zero. -/
def OptionP.make (short long : Option String) (argcount : Nat) (value : PyValue) :
    OptionP :=
  ⟨short, long, argcount, if value = .bool false ∧ argcount ≠ 0 then .none else value⟩

mutual
/-- The pattern tree of `elements.py`: leaves `Argument`, `Command`, `Option`
and branches `Required`, `Optional`, `OptionsShortcut`, `OneOrMore`, `Either`.
`Command` subclasses `Argument` and `OptionsShortcut` subclasses `Optional` in
the source, but `type(x) is C` dispatch treats all eight as distinct kinds. -/
inductive Pattern where
  | argument (name : Option String) (value : PyValue)
  | command (name : Option String) (value : PyValue)
  | option (o : OptionP)
  | required (children : Patterns)
  | optional (children : Patterns)
  | optionsShortcut (children : Patterns)
  | oneOrMore (children : Patterns)
  | either (children : Patterns)
  deriving DecidableEq, Repr

/-- Child lists of branch patterns (a mutual list type so that all functions on
trees are structurally recursive and computable). -/
inductive Patterns where
  | nil
  | cons (head : Pattern) (tail : Patterns)
  deriving DecidableEq, Repr
end

/-- Conversion of a `Patterns` child list to a standard list. -/
def Patterns.toList : Patterns → List Pattern
  | .nil => []
  | .cons p ps => p :: ps.toList

/-- Conversion of a standard list to a `Patterns` child list. -/
def Patterns.ofList : List Pattern → Patterns
  | [] => .nil
  | p :: ps => .cons p (Patterns.ofList ps)

/-- The `name` property: for `Option` it is `self.long or self.short` (Python
`or`, so an empty-string long falls through to the short); for
`Argument`/`Command` the stored name.  Branch patterns have no `name` attribute
in the source (accessing it raises); they never occur where `name` is read, and
the embedding returns `none` for them. -/
def Pattern.name : Pattern → Option String
  | .argument n _ => n
  | .command n _ => n
  | .option o =>
    match o.long with
    | some l => if l.isEmpty then o.short else some l
    | none => o.short
  | _ => none

/-- The `value` attribute of a leaf.  Branch patterns have no `value` attribute
in the source (accessing it raises); they never occur where `value` is read,
and the embedding returns `.none` for them. -/
def Pattern.value : Pattern → PyValue
  | .argument _ v => v
  | .command _ v => v
  | .option o => o.value
  | _ => .none

/-- Replacement of a leaf's `value` attribute (`x.value = v` in the source);
identity on branch patterns. -/
def Pattern.withValue (v : PyValue) : Pattern → Pattern
  | .argument n _ => .argument n v
  | .command n _ => .command n v
  | .option o => .option {o with value := v}
  | p => p

/-- The `argcount` attribute of an `Option` leaf (`0` elsewhere; the source
only reads it on `Option`s). -/
def Pattern.argcountOf : Pattern → Nat
  | .option o => o.argcount
  | _ => 0

/-- State manipulated by the matcher: `(matched, left, collected)`. -/
abbrev MState := Bool × List Pattern × List Pattern

/-- Scan for the first element of `left` whose dynamic type is `Argument`
(`Argument.single_match`), returning its index and the element. -/
def findArg : List Pattern → Nat → Option (Nat × Pattern)
  | [], _ => none
  | .argument n v :: _, i => some (i, .argument n v)
  | _ :: rest, i => findArg rest (i + 1)

/-- Scan for the first element of `left` whose `name` equals `nm`
(`Option.single_match`), returning its index and the element itself. -/
def findByName (nm : Option String) : List Pattern → Nat → Option (Nat × Pattern)
  | [], _ => none
  | p :: rest, i => if p.name = nm then some (i, p) else findByName nm rest (i + 1)

/-- Python `pattern.value == self.name` in `Command.single_match`: a string
value equals a string name, and `None == None` holds. -/
def valueEqName : PyValue → Option String → Bool
  | .str s, some t => s = t
  | .none, none => true
  | _, _ => false

/-- The `single_match` method of the three leaf classes.  `Argument` takes the
first `Argument`-typed element and rebuilds it under its own name; `Command`
inspects only the first `Argument`-typed element and requires its value to
equal the command name; `Option` takes the first element with the same `name`
and returns that element itself (no copy: the matched object is the argv leaf).
Branch patterns raise `NotImplementedError` in the source; `none` here. -/
def singleMatch : Pattern → List Pattern → Option (Nat × Pattern)
  | .argument n _, left =>
    match findArg left 0 with
    | some (i, p) => some (i, .argument n p.value)
    | none => none
  | .command n _, left =>
    match findArg left 0 with
    | some (i, p) => if valueEqName p.value n then some (i, .command n (.bool true)) else none
    | none => none
  | .option o, left => findByName (Pattern.option o).name left 0
  | _, _ => none

/-- Application of `f` to the `value` of the first element of `collected` whose
`name` equals `nm` (the source mutates `same_name[0]`, the first such element,
in place). -/
def updateFirstNamed (nm : Option String) (f : PyValue → PyValue) :
    List Pattern → List Pattern
  | [] => []
  | a :: rest =>
    if a.name = nm then a.withValue (f a.value) :: rest
    else a :: updateFirstNamed nm f rest

/-- The body of `LeafPattern.match`, purified: on a hit the matched element is
removed from `left`; count-typed (`int`-valued) leaves increment the first
collected element of the same name (or seed a fresh one at 1); list-typed
leaves extend the first collected element's list with the matched string (or
seed a fresh one-element list); otherwise the matched element is appended to
`collected`.  The source performs these updates by mutating the leaf objects
in place (`same_name[0].value += 1`, `match.value = 1` on the argv leaf still
referenced by the caller's `left`); this embedding rewrites only the
functional copies it returns, so it diverges from the engine wherever those
mutations are observed through another alias. -/
def leafMatch (p : Pattern) (left collected : List Pattern) : MState :=
  match singleMatch p left with
  | none => (false, left, collected)
  | some (pos, m) =>
    let left_ := left.take pos ++ left.drop (pos + 1)
    let same_name := collected.filter (fun a => a.name = p.name)
    if p.value.typeIsInt ∧ same_name ≠ [] then
      (true, left_,
        updateFirstNamed p.name (fun v => if v.isInstInt then v.incr else v) collected)
    else if p.value.typeIsInt ∧ same_name = [] then
      (true, left_, collected ++ [m.withValue (.int 1)])
    else if same_name ≠ [] ∧ p.value.typeIsList then
      let increment : Option (List String) :=
        match m.value with
        | .str s => some [s]
        | _ => none
      (true, left_,
        updateFirstNamed p.name
          (fun v =>
            match increment, v with
            | some inc, .list xs => .list (xs ++ inc)
            | _, v => v)
          collected)
    else if same_name = [] ∧ p.value.typeIsList then
      let m' :=
        match m.value with
        | .str s => m.withValue (.list [s])
        | _ => m
      (true, left_, collected ++ [m'])
    else (true, left_, collected ++ [m])

/-- The `while matched:` loop of `OneOrMore.match`, with the child's `match`
passed in as `step`.  `lprev` is the `l_` variable (the previous iteration's
`left`, initially `None`); the loop breaks when the new `left` equals it.  The
fuel is unreachable-by-construction: the wrapper supplies `left.length + 2`,
and each continuing iteration strictly shortens `left` (every `match` result's
`left` is a sublist of its input), so the loop always breaks first. -/
def oomRun (step : List Pattern → List Pattern → MState) :
    Nat → List Pattern → List Pattern → Option (List Pattern) → Nat → MState × Nat
  | 0, l, c, _, times => ((false, l, c), times)
  | fuel + 1, l, c, lprev, times =>
    let r := step l c
    let times' := if r.1 then times + 1 else times
    if lprev = some r.2.1 then (r, times')
    else if r.1 then oomRun step fuel r.2.1 r.2.2 (some r.2.1) times'
    else (r, times')

mutual
/-- The polymorphic `match` method: dispatch over the eight pattern kinds.
`Required` folds children threading state and restores the original state on
the first failure; `Optional`/`OptionsShortcut` fold ignoring failures and
always succeed; `OneOrMore` (asserted in the source to own exactly one child;
other shapes raise `AssertionError` and are mapped to a plain failure here)
runs the repetition loop and succeeds iff at least one repetition matched;
`Either` evaluates every child on the same starting state and takes the first
outcome with the shortest leftover `left`. -/
def Pattern.match' : Pattern → List Pattern → List Pattern → MState
  | .argument n v, left, collected => leafMatch (.argument n v) left collected
  | .command n v, left, collected => leafMatch (.command n v) left collected
  | .option o, left, collected => leafMatch (.option o) left collected
  | .required cs, left, collected => Patterns.matchRequired cs left collected left collected
  | .optional cs, left, collected =>
    let r := Patterns.matchOptional cs left collected
    (true, r.1, r.2)
  | .optionsShortcut cs, left, collected =>
    let r := Patterns.matchOptional cs left collected
    (true, r.1, r.2)
  | .oneOrMore cs, left, collected =>
    match cs with
    | .cons child .nil =>
      let r := oomRun (fun l c => Pattern.match' child l c) (left.length + 2)
        left collected none 0
      if r.2 ≥ 1 then (true, r.1.2.1, r.1.2.2) else (false, left, collected)
    | _ => (false, left, collected)
  | .either cs, left, collected =>
    match Patterns.eitherOutcomes cs left collected with
    | [] => (false, left, collected)
    | o :: os => minOutcome o os

/-- The child fold of `Required.match`: `l0`/`c0` are the entry state, restored
on the first child failure. -/
def Patterns.matchRequired : Patterns → List Pattern → List Pattern → List Pattern →
    List Pattern → MState
  | .nil, l, c, _, _ => (true, l, c)
  | .cons p ps, l, c, l0, c0 =>
    let r := p.match' l c
    if r.1 then Patterns.matchRequired ps r.2.1 r.2.2 l0 c0 else (false, l0, c0)

/-- The child fold of `Optional.match`: thread state, ignore the matched flag. -/
def Patterns.matchOptional : Patterns → List Pattern → List Pattern →
    List Pattern × List Pattern
  | .nil, l, c => (l, c)
  | .cons p ps, l, c =>
    let r := p.match' l c
    Patterns.matchOptional ps r.2.1 r.2.2

/-- The outcome collection of `Either.match`, purified: every child is matched
against an independent copy of the starting state, and successful outcomes are
kept in child order.  In the source all children receive the same mutable
`left`/`collected` objects, so a later child sees and compounds the in-place
increments of an earlier child; this embedding evaluates each child on a pure
snapshot and therefore reproduces the engine only when no child mutates an
aliased accumulator leaf. -/
def Patterns.eitherOutcomes : Patterns → List Pattern → List Pattern → List MState
  | .nil, _, _ => []
  | .cons p ps, l, c =>
    let r := p.match' l c
    if r.1 then r :: ps.eitherOutcomes l c else ps.eitherOutcomes l c

/-- Python `min(outcomes, key=lambda outcome: len(outcome[1]))`: the first
outcome attaining the minimal leftover length. -/
def minOutcome : MState → List MState → MState
  | best, [] => best
  | best, o :: os => minOutcome (if o.2.1.length < best.2.1.length then o else best) os
end

/-! String helpers mirroring the Python `str` methods used by the source.
All of them operate on the character list of the string.  The engine's inputs
are ASCII, and Python's whitespace set is rendered as the ASCII whitespace
characters. -/

/-- Whitespace for `str.split()` / `str.strip()` (ASCII subset). -/
def pyIsSpace (c : Char) : Bool :=
  c = ' ' ∨ c = '\t' ∨ c = '\n' ∨ c = '\r' ∨ c = '\x0b' ∨ c = '\x0c'

/-- Python `str.split()` with no argument: split on whitespace runs, dropping
empty pieces. -/
def splitWsChars : List Char → List Char → List (List Char)
  | [], [] => []
  | [], buf => [buf]
  | c :: cs, buf =>
    if pyIsSpace c then
      if buf = [] then splitWsChars cs [] else buf :: splitWsChars cs []
    else splitWsChars cs (buf ++ [c])

/-- Python `s.split()` on a string. -/
def pySplit (s : String) : List String :=
  (splitWsChars s.toList []).map List.asString

/-- Python `s.strip()`: whitespace removed from both ends. -/
def pyStrip (s : String) : String :=
  (((s.toList.dropWhile pyIsSpace).reverse.dropWhile pyIsSpace).reverse).asString

/-! Tree utilities of `elements.py`. -/

/-- The dynamic type of a pattern node, for the `type(x) in types` checks of
`flat` and `transform`. -/
inductive PatKind where
  | argument | command | option | required | optional | optionsShortcut | oneOrMore | either
  deriving DecidableEq, Repr

/-- Dynamic type of a pattern node. -/
def Pattern.kind : Pattern → PatKind
  | .argument _ _ => .argument
  | .command _ _ => .command
  | .option _ => .option
  | .required _ => .required
  | .optional _ => .optional
  | .optionsShortcut _ => .optionsShortcut
  | .oneOrMore _ => .oneOrMore
  | .either _ => .either

/-- Test for branch (composite) nodes, the `parents` list in `transform`. -/
def Pattern.isBranch : Pattern → Bool
  | .required _ => true
  | .optional _ => true
  | .optionsShortcut _ => true
  | .oneOrMore _ => true
  | .either _ => true
  | _ => false

mutual
/-- The `flat(*types)` method: a leaf yields itself when `types` is empty or
contains its type; a branch yields itself when `types` contains its type and
otherwise concatenates its children's `flat`. -/
def Pattern.flat (types : List PatKind) (p : Pattern) : List Pattern :=
  match p with
  | .argument n v =>
    if types = [] ∨ PatKind.argument ∈ types then [.argument n v] else []
  | .command n v =>
    if types = [] ∨ PatKind.command ∈ types then [.command n v] else []
  | .option o =>
    if types = [] ∨ PatKind.option ∈ types then [.option o] else []
  | .required cs =>
    if PatKind.required ∈ types then [.required cs] else Patterns.flatList types cs
  | .optional cs =>
    if PatKind.optional ∈ types then [.optional cs] else Patterns.flatList types cs
  | .optionsShortcut cs =>
    if PatKind.optionsShortcut ∈ types then [.optionsShortcut cs]
    else Patterns.flatList types cs
  | .oneOrMore cs =>
    if PatKind.oneOrMore ∈ types then [.oneOrMore cs] else Patterns.flatList types cs
  | .either cs =>
    if PatKind.either ∈ types then [.either cs] else Patterns.flatList types cs

/-- Concatenation of `flat` over a child list. -/
def Patterns.flatList (types : List PatKind) : Patterns → List Pattern
  | .nil => []
  | .cons p ps => Pattern.flat types p ++ Patterns.flatList types ps
end

mutual
/-- Application of `f` at every leaf position of the tree.  This is how the
embedding renders the source's in-place mutation of leaf objects (which, after
identity unification, updates all structurally equal occurrences at once). -/
def Pattern.mapLeaves (f : Pattern → Pattern) : Pattern → Pattern
  | .argument n v => f (.argument n v)
  | .command n v => f (.command n v)
  | .option o => f (.option o)
  | .required cs => .required (Patterns.mapLeavesList f cs)
  | .optional cs => .optional (Patterns.mapLeavesList f cs)
  | .optionsShortcut cs => .optionsShortcut (Patterns.mapLeavesList f cs)
  | .oneOrMore cs => .oneOrMore (Patterns.mapLeavesList f cs)
  | .either cs => .either (Patterns.mapLeavesList f cs)

/-- Application of `mapLeaves` over a child list. -/
def Patterns.mapLeavesList (f : Pattern → Pattern) : Patterns → Patterns
  | .nil => .nil
  | .cons p ps => .cons (Pattern.mapLeaves f p) (Patterns.mapLeavesList f ps)
end

/-- Decomposition of a group at its first branch-typed element:
`[c for c in children if type(c) in parents][0]` followed by
`children.remove(child)` (which removes that same position, since the elements
before it are leaves and a leaf never equals a branch). -/
def splitAtFirstBranch : List Pattern → Option (List Pattern × Pattern × List Pattern)
  | [] => none
  | p :: rest =>
    if p.isBranch then some ([], p, rest)
    else
      match splitAtFirstBranch rest with
      | some (pre, c, post) => some (p :: pre, c, post)
      | none => none

mutual
/-- Termination potential for the `transform` work-list: `2` per leaf and
`1 + (product of children)^2` per branch.  Each loop iteration strictly
decreases the sum over groups of the product over group members, so the
potential of the initial group bounds the number of iterations. -/
def Pattern.nu : Pattern → Nat
  | .argument _ _ => 2
  | .command _ _ => 2
  | .option _ => 2
  | .required cs => 1 + (Patterns.nuList cs) ^ 2
  | .optional cs => 1 + (Patterns.nuList cs) ^ 2
  | .optionsShortcut cs => 1 + (Patterns.nuList cs) ^ 2
  | .oneOrMore cs => 1 + (Patterns.nuList cs) ^ 2
  | .either cs => 1 + (Patterns.nuList cs) ^ 2

/-- Product of `nu` over a child list. -/
def Patterns.nuList : Patterns → Nat
  | .nil => 1
  | .cons p ps => p.nu * ps.nuList
end

/-- The work-list loop of `transform` in `elements.py`: pop the first group; if
it holds a branch node, replace that node by its expansion (`Either` children
fork the group, `OneOrMore` children are doubled, other branches are spliced
in) and push the new group(s) at the back; a branch-free group moves to the
result.  The fuel is bounded below by the potential `nu` and is never exhausted
when the wrapper's fuel is used. -/
def transformLoop : Nat → List (List Pattern) → List (List Pattern) → List (List Pattern)
  | 0, _, result => result
  | _ + 1, [], result => result
  | fuel + 1, children :: groups, result =>
    match splitAtFirstBranch children with
    | none => transformLoop fuel groups (result ++ [children])
    | some (pre, child, post) =>
      let rest := pre ++ post
      match child with
      | .either cs =>
        transformLoop fuel (groups ++ cs.toList.map fun c => c :: rest) result
      | .oneOrMore cs =>
        transformLoop fuel (groups ++ [cs.toList ++ cs.toList ++ rest]) result
      | .required cs => transformLoop fuel (groups ++ [cs.toList ++ rest]) result
      | .optional cs => transformLoop fuel (groups ++ [cs.toList ++ rest]) result
      | .optionsShortcut cs => transformLoop fuel (groups ++ [cs.toList ++ rest]) result
      | _ => transformLoop fuel groups result

/-- The list of conjunctive alternatives of the disjunctive normal form:
`[list(child.children) for child in transform(pattern).children]`. -/
def dnfCases (p : Pattern) : List (List Pattern) :=
  transformLoop (p.nu + 1) [[p]] []

/-- The `transform` function itself: an `Either` of `Required` groups. -/
def transform (p : Pattern) : Pattern :=
  .either (Patterns.ofList ((dnfCases p).map fun e => .required (Patterns.ofList e)))

/-- Seeding of an accumulator-typed `Argument` / arity-1 `Option` value:
`None` becomes the empty list, a non-list value is split on whitespace
(`e.value.split()`; a string in every state the pipeline produces — an `int` or
`bool` there would raise `AttributeError` in the source and is left unchanged
here), a list is left unchanged. -/
def seedArgValue : PyValue → PyValue
  | .none => .list []
  | .str s => .list (pySplit s)
  | .list xs => .list xs
  | v => v

/-- The per-leaf update of `fix_repeating_arguments`: repeated `Argument`s and
arity-1 `Option`s become list-valued, repeated `Command`s and arity-0 `Option`s
become count-valued (seeded to `0`). -/
def seedLeaf : Pattern → Pattern
  | .argument n v => .argument n (seedArgValue v)
  | .command n _ => .command n (.int 0)
  | .option o =>
    if o.argcount ≠ 0 then .option {o with value := seedArgValue o.value}
    else .option {o with value := .int 0}
  | p => p

/-- Occurrence of `x` more than once in some conjunctive alternative
(`case.count(child) > 1`). -/
def repeatedIn (cases : List (List Pattern)) (x : Pattern) : Bool :=
  cases.any fun case => 2 ≤ case.count x

/-- The `fix_identities` pass replaces every leaf of the tree by the canonical
(first) object among the leaves equal to it by `repr`.  Since `repr` equality
of leaves coincides with structural equality of the embedded data, the pass is
the identity on the embedded tree; its aliasing effect (mutation of one leaf
updating all equal occurrences) is rendered by `mapLeaves` updating all
structurally equal leaf positions in `fix_repeating_arguments`. -/
def Pattern.fix_identities (p : Pattern) : Pattern := p

/-- The `fix_repeating_arguments` pass: every leaf occurring more than once in
some conjunctive alternative of the expanded tree is replaced by its seeded
(accumulator-typed) form. -/
def Pattern.fix_repeating_arguments (p : Pattern) : Pattern :=
  p.mapLeaves fun x => if repeatedIn (dnfCases p) x then seedLeaf x else x

/-- The `fix` method: identity unification then repetition detection. -/
def Pattern.fix (p : Pattern) : Pattern :=
  p.fix_identities.fix_repeating_arguments

mutual
/-- Plain node count of a pattern tree, the measure for strong induction over
the matcher. -/
def Pattern.psize : Pattern → Nat
  | .argument _ _ => 1
  | .command _ _ => 1
  | .option _ => 1
  | .required cs => 1 + Patterns.psizeList cs
  | .optional cs => 1 + Patterns.psizeList cs
  | .optionsShortcut cs => 1 + Patterns.psizeList cs
  | .oneOrMore cs => 1 + Patterns.psizeList cs
  | .either cs => 1 + Patterns.psizeList cs

/-- Sum of `psize` over a child list. -/
def Patterns.psizeList : Patterns → Nat
  | .nil => 0
  | .cons p ps => p.psize + Patterns.psizeList ps
end

/-! Parsers (`parsers.py`) and the driver (`__init__.py`). -/

/-- Errors surfaced by the engine: `lang` is `DocoptLanguageError` (a bug in
the grammar text), `exit` is `DocoptExit` (a user-invocation error); `help` and
`version` stand for the `extras` short-circuit, which prints and calls
`sys.exit()` in the source. -/
inductive DocErr where
  | lang (msg : String)
  | exit (msg : String)
  | help
  | version
  deriving DecidableEq, Repr

/-- Construction of `tokens.error(msg)`: argv tokens carry `DocoptExit`,
grammar-pattern tokens carry `DocoptLanguageError`. -/
def docErr (argvMode : Bool) (msg : String) : DocErr :=
  if argvMode then .exit msg else .lang msg

/-- Python `s.startswith(pre)`. -/
def pyStartsWith (s pre : String) : Bool :=
  pre.toList.isPrefixOf s.toList

/-- Python `s.endswith(suffix)`. -/
def pyEndsWith (s sfx : String) : Bool :=
  sfx.toList.reverse.isPrefixOf s.toList.reverse

/-- Python `s.isupper()`: at least one cased character and no lowercase cased
character (ASCII letters are the cased characters arising here). -/
def pyIsUpper (s : String) : Bool :=
  let cased := s.toList.filter Char.isAlpha
  ¬cased.isEmpty ∧ cased.all Char.isUpper

/-- Split on newline characters, keeping empty lines (Python line structure as
seen by `re.MULTILINE` anchors). -/
def splitOnNl : List Char → List Char → List (List Char)
  | [], buf => [buf]
  | c :: cs, buf => if c = '\n' then buf :: splitOnNl cs [] else splitOnNl cs (buf ++ [c])

/-- Python `s.partition(sep)` core: the text before and after the first
occurrence of `sep`. -/
def findSub (sep : List Char) : List Char → Option (List Char × List Char)
  | [] => if sep = [] then some ([], []) else none
  | c :: cs =>
    if sep.isPrefixOf (c :: cs) then some ([], (c :: cs).drop sep.length)
    else
      match findSub sep cs with
      | some (pre, post) => some (c :: pre, post)
      | none => none

/-- Python `s.partition(sep)`. -/
def pyPartition (s sep : String) : String × String × String :=
  match findSub sep.toList s.toList with
  | some (pre, post) => (pre.asString, sep, post.asString)
  | none => (s, "", "")

mutual
/-- Scanner for `parse_section`: the source regex
`(?<=(^<name>$))([\s\S]*?)(?=(^</name>$))` with `MULTILINE` captures, for each
line equal to the opening tag, the shortest span of text up to the next line
equal to the closing tag.  Linewise: outside a section, look for the opening
tag line. -/
def sectionScan (openT closeT : List Char) : List (List Char) → List (List Char)
  | [] => []
  | l :: ls =>
    if l = openT then sectionCapture openT closeT ls []
    else sectionScan openT closeT ls

/-- Inside a section: accumulate lines until the closing tag line; the captured
text runs from the newline after the opening tag to the newline before the
closing tag, hence the leading `'\n'` and one `'\n'` after each captured line.
An unclosed section captures nothing (the regex needs the closing lookahead). -/
def sectionCapture (openT closeT : List Char) : List (List Char) → List (List Char) →
    List (List Char)
  | [], _ => []
  | l :: ls, acc =>
    if l = closeT then
      ('\n' :: acc.flatMap (· ++ ['\n'])) :: sectionScan openT closeT ls
    else sectionCapture openT closeT ls (acc ++ [l])
end

/-- The `parse_section` function of `parsers.py`. -/
def parse_section (name : String) (source : String) : List String :=
  let openT := ("<" ++ name ++ ">").toList
  let closeT := ("</" ++ name ++ ">").toList
  (sectionScan openT closeT (splitOnNl source.toList [])).map List.asString

/-- The `formal_usage` function of `__init__.py`: drop the program name and
re-spell repetitions of it as alternation.  The source indexes `pu[0]` and
raises `IndexError` on a whitespace-only section; that case is unreachable for
well-formed documents and returns the same `"(  )"` the join would produce. -/
def formal_usage (sec : String) : String :=
  match pySplit sec with
  | [] => "(  )"
  | p0 :: rest =>
    "( " ++ String.intercalate " " (rest.map fun s => if s = p0 then ") | (" else s) ++ " )"

/-- Step 1 of `Tokens.from_pattern`: the substitution
`re.sub(r"([\[\]\(\)\|]|\.\.\.)", r" \1 ", source)` padding brackets, parens,
pipes and ellipses with spaces. -/
def padSpecials : List Char → List Char
  | [] => []
  | '.' :: '.' :: '.' :: cs => ' ' :: '.' :: '.' :: '.' :: ' ' :: padSpecials cs
  | c :: cs =>
    if c = '[' ∨ c = ']' ∨ c = '(' ∨ c = ')' ∨ c = '|' then
      ' ' :: c :: ' ' :: padSpecials cs
    else c :: padSpecials cs

/-- Index of the first `'>'` not preceded by a newline (the minimal `.*?>` of
the placeholder regex; `.` does not match `'\n'`). -/
def firstGtBeforeNl (l : List Char) : Option Nat :=
  let pre := l.takeWhile fun c => c ≠ '>' ∧ c ≠ '\n'
  match l.get? pre.length with
  | some _ => some pre.length
  | none => none

/-- Backtracking over the candidate `'<'` positions (largest first, as the
greedy `\S*` does): the match extends to the first `'>'` after the chosen
`'<'`. -/
def placeholderFrom (s : List Char) : List Nat → Option (List Char × List Char)
  | [] => none
  | i :: is =>
    match firstGtBeforeNl (s.drop (i + 1)) with
    | some m => some (s.take (i + 1 + m + 1), s.drop (i + 1 + m + 1))
    | none => placeholderFrom s is

/-- Match of the regex `\S*<.*?>` at the head of `s`: some run of non-space
characters, then a `'<'`, then minimally up to a `'>'`. -/
def tryPlaceholder (s : List Char) : Option (List Char × List Char) :=
  let run := s.takeWhile fun c => ¬pyIsSpace c
  let cands := (List.range run.length).filter fun i => run.get? i = some '<'
  placeholderFrom s cands.reverse

/-- Step 2 of `Tokens.from_pattern`: the split
`[s for s in re.split(r"\s+|(\S*<.*?>)", source) if s]` — whitespace separates
tokens, and `<...>`-placeholders (with any attached non-space prefix) are kept
intact as single tokens.  Each step consumes at least one character, so the
fuel `length + 1` supplied by the wrapper is never exhausted. -/
def splitKP : Nat → List Char → List Char → List (List Char)
  | 0, _, buf => if buf = [] then [] else [buf]
  | _ + 1, [], buf => if buf = [] then [] else [buf]
  | fuel + 1, c :: cs, buf =>
    if pyIsSpace c then (if buf = [] then [] else [buf]) ++ splitKP fuel cs []
    else
      match tryPlaceholder (c :: cs) with
      | some (tok, rest) => (if buf = [] then [] else [buf]) ++ [tok] ++ splitKP fuel rest []
      | none => splitKP fuel cs (buf ++ [c])

/-- The `Tokens.from_pattern` static method. -/
def fromPattern (source : String) : List String :=
  let padded := padSpecials source.toList
  (splitKP (padded.length + 1) padded []).map List.asString

/-- Case-insensitive search for `[default: ` in one line, capturing greedily up
to the last `]` of that line (the regex `\[default: (.*)\]` with `re.I`). -/
def findDefaultLine : List Char → Option String
  | [] => none
  | c :: cs =>
    if "[default: ".toList.isPrefixOf ((c :: cs).map Char.toLower) then
      let tl := (c :: cs).drop "[default: ".length
      match (List.range tl.length).filter (fun i => tl.get? i = some ']') with
      | [] => findDefaultLine cs
      | idxs@(_ :: _) =>
        match idxs.getLast? with
        | some m => some (tl.take m).asString
        | none => findDefaultLine cs
    else findDefaultLine cs

/-- First `[default: ...]` annotation of a description (the first regex match
in string order; `.` does not cross newlines, so the search is per line). -/
def findDefault (description : String) : Option String :=
  (splitOnNl description.toList []).foldl
    (fun acc line => match acc with
      | some d => some d
      | none => findDefaultLine line)
    none

/-- The `Option.parse` classmethod: split the fragment at the first double
space into the option spellings and the description, read the spellings
(commas and equal signs become spaces), and fetch the `[default: ...]` value
for arity-1 options. -/
def OptionP.parse (option_description : String) : OptionP :=
  let stripped := pyStrip option_description
  let (options_part, _, description) := pyPartition stripped "  "
  let cleaned := options_part.toList.map fun c => if c = ',' ∨ c = '=' then ' ' else c
  let toks := (splitWsChars cleaned []).map List.asString
  let z := toks.foldl
    (fun (acc : Option String × Option String × Nat) s =>
      if pyStartsWith s "--" then (acc.1, some s, acc.2.2)
      else if pyStartsWith s "-" then (some s, acc.2.1, acc.2.2)
      else (acc.1, acc.2.1, 1))
    (none, none, 0)
  let value : PyValue :=
    if z.2.2 ≠ 0 then
      match findDefault description with
      | some d => .str d
      | none => .none
    else .bool false
  OptionP.make z.1 z.2.1 z.2.2 value

/-- Boundary test of the `re.split(r"\n[ \t]*(-\S+?)", ...)` fragmenting in
`parse_defaults`: a line is an option fragment start when, after space/tab
indentation, it begins with `'-'` followed by a non-space character. -/
def isOptBoundary (line : List Char) : Bool :=
  match line.dropWhile fun c => c = ' ' ∨ c = '\t' with
  | '-' :: c :: _ => ¬pyIsSpace c
  | _ => false

/-- Fragment assembly: a boundary line starts a new fragment (indentation
stripped, as it sits outside the captured group); other lines are folded into
the current fragment with their newline; lines before the first boundary are
dropped (the `[1:]` in the source). -/
def optFragments : List (List Char) → Option (List Char) → List (List Char)
  | [], cur =>
    (match cur with
     | some f => [f]
     | none => [])
  | l :: ls, cur =>
    if isOptBoundary l then
      let started := l.dropWhile fun c => c = ' ' ∨ c = '\t'
      match cur with
      | some f => f :: optFragments ls (some started)
      | none => optFragments ls (some started)
    else
      match cur with
      | some f => optFragments ls (some (f ++ '\n' :: l))
      | none => optFragments ls none

/-- The `parse_defaults` function: every `<options>` section contributes one
`Option.parse` per fragment that begins with `'-'`. -/
def parse_defaults (doc : String) : List OptionP :=
  (parse_section "options" doc).flatMap fun s =>
    ((optFragments (splitOnNl s.toList []) none).filter
      (fun f => f.head? = some '-')).map fun f => OptionP.parse f.asString

/-- The `parse_long` function.  `next` is `tokens.current()` after the moved
token; the returned `Bool` records whether that next token was consumed as the
option's value.  In argv mode an unmatched long falls back to unambiguous
prefix matching, and unknown longs are registered (value-`False` copy) while
the parsed leaf carries the argv value (or `True`). -/
def parse_long (argvMode : Bool) (token : String) (next : Option String)
    (options : List OptionP) : Except DocErr (OptionP × Bool × List OptionP) :=
  let pt := pyPartition token "="
  let long := pt.1
  let eq := pt.2.1
  let v0 := pt.2.2
  let value : Option String := if eq = "" ∧ v0 = "" then none else some v0
  let similar0 := options.filter fun o => o.long = some long
  let similar :=
    if argvMode ∧ similar0 = [] then
      options.filter fun o =>
        match o.long with
        | some s => ¬s.isEmpty ∧ pyStartsWith s long
        | none => false
    else similar0
  match similar with
  | _ :: _ :: _ =>
    .error (docErr argvMode
      (long ++ " is not a unique prefix: " ++
        String.intercalate ", " (similar.filterMap (·.long)) ++ "?"))
  | [] =>
    let argcount := if eq = "=" then 1 else 0
    let o0 := OptionP.make none (some long) argcount (.bool false)
    let options' := options ++ [o0]
    let o :=
      if argvMode then
        OptionP.make none (some long) argcount
          (if argcount ≠ 0 then
            (match value with
             | some v => .str v
             | none => .none)
          else .bool true)
      else o0
    .ok (o, false, options')
  | [s] =>
    let o1 := OptionP.make s.short s.long s.argcount s.value
    if o1.argcount = 0 then
      if value.isSome then
        .error (docErr argvMode (long ++ " must not have an argument"))
      else .ok ((if argvMode then {o1 with value := .bool true} else o1), false, options)
    else
      match value with
      | none =>
        match next with
        | none => .error (docErr argvMode (long ++ " requires argument"))
        | some nx =>
          if nx = "--" then .error (docErr argvMode (long ++ " requires argument"))
          else .ok ((if argvMode then {o1 with value := .str nx} else o1), true, options)
      | some v =>
        .ok ((if argvMode then {o1 with value := .str v} else o1), false, options)

/-- The `while left != ''` loop of `parse_shorts`: one short option per
character of the run.  Unknown shorts are registered with arity 0 (value-`False`
copy) and parsed as value-`True` in argv mode; a known arity-1 short consumes
the remaining run characters, or else the next token (second component `true`),
as its value. -/
def parse_shortsLoop (argvMode : Bool) (next : Option String) :
    List Char → List OptionP → List OptionP →
    Except DocErr (List OptionP × Bool × List OptionP)
  | [], parsed, opts => .ok (parsed, false, opts)
  | ch :: rest, parsed, opts =>
    let short := String.mk ['-', ch]
    let similar := opts.filter fun o => o.short = some short
    match similar with
    | _ :: _ :: _ =>
      .error (docErr argvMode
        (short ++ " is specified ambiguously " ++ toString similar.length ++ " times"))
    | [] =>
      let o0 := OptionP.make (some short) none 0 (.bool false)
      let opts' := opts ++ [o0]
      let o := if argvMode then OptionP.make (some short) none 0 (.bool true) else o0
      parse_shortsLoop argvMode next rest (parsed ++ [o]) opts'
    | [s] =>
      let o1 := OptionP.make (some short) s.long s.argcount s.value
      if o1.argcount ≠ 0 then
        match rest with
        | [] =>
          match next with
          | none => .error (docErr argvMode (short ++ " requires argument"))
          | some nx =>
            if nx = "--" then .error (docErr argvMode (short ++ " requires argument"))
            else .ok (parsed ++ [if argvMode then {o1 with value := .str nx} else o1], true, opts)
        | _ =>
          .ok (parsed ++ [if argvMode then {o1 with value := .str rest.asString} else o1],
            false, opts)
      else
        parse_shortsLoop argvMode next rest
          (parsed ++ [if argvMode then {o1 with value := .bool true} else o1]) opts

/-- The `parse_shorts` function: `token.lstrip('-')` then the per-character
loop. -/
def parse_shorts (argvMode : Bool) (token : String) (next : Option String)
    (options : List OptionP) : Except DocErr (List OptionP × Bool × List OptionP) :=
  parse_shortsLoop argvMode next (token.toList.dropWhile (· = '-')) [] options

mutual
/-- The recursive-descent grammar parser (`parse_expr`): `seq ('|' seq)*`.
Results are `(patterns, remaining tokens, options)`.  Fuel is decremented on
every call; each parser consumes at least one token per loop step, so the
wrapper's fuel `4 * tokens + 16` is never exhausted on real inputs. -/
def parse_expr : Nat → List String → List OptionP →
    Except DocErr (List Pattern × List String × List OptionP)
  | 0, _, _ => .error (.lang "pattern parser fuel exhausted")
  | fuel + 1, tokens, options =>
    match parse_seq fuel tokens options with
    | .error e => .error e
    | .ok (seq, tokens1, opts1) =>
      if tokens1.head? ≠ some "|" then .ok (seq, tokens1, opts1)
      else
        parse_exprTail fuel tokens1 opts1
          (if seq.length > 1 then [.required (Patterns.ofList seq)] else seq)

/-- The `while tokens.current() == '|'` loop of `parse_expr`. -/
def parse_exprTail : Nat → List String → List OptionP → List Pattern →
    Except DocErr (List Pattern × List String × List OptionP)
  | 0, _, _, _ => .error (.lang "pattern parser fuel exhausted")
  | fuel + 1, tokens, options, result =>
    match tokens with
    | "|" :: rest =>
      match parse_seq fuel rest options with
      | .error e => .error e
      | .ok (seq, tokens2, opts2) =>
        parse_exprTail fuel tokens2 opts2
          (result ++ (if seq.length > 1 then [.required (Patterns.ofList seq)] else seq))
    | _ =>
      .ok ((if result.length > 1 then [.either (Patterns.ofList result)] else result),
        tokens, options)

/-- The `parse_seq` function: `(atom '...'?)*`, stopping on `None`, `']'`,
`')'` or `'|'`. -/
def parse_seq : Nat → List String → List OptionP →
    Except DocErr (List Pattern × List String × List OptionP)
  | 0, _, _ => .error (.lang "pattern parser fuel exhausted")
  | fuel + 1, tokens, options =>
    match tokens.head? with
    | none => .ok ([], tokens, options)
    | some t =>
      if t = "]" ∨ t = ")" ∨ t = "|" then .ok ([], tokens, options)
      else
        match parse_atom fuel tokens options with
        | .error e => .error e
        | .ok (atom, tokens1, opts1) =>
          match tokens1 with
          | "..." :: tokens2 =>
            match parse_seq fuel tokens2 opts1 with
            | .error e => .error e
            | .ok (rest, tokens3, opts3) =>
              .ok ([.oneOrMore (Patterns.ofList atom)] ++ rest, tokens3, opts3)
          | _ =>
            match parse_seq fuel tokens1 opts1 with
            | .error e => .error e
            | .ok (rest, tokens3, opts3) => .ok (atom ++ rest, tokens3, opts3)

/-- The `parse_atom` function: groups, the `options` shortcut, long options,
short-option runs, `<...>`/UPPERCASE arguments and commands.  The empty-stream
case is unreachable (`parse_seq` guards it) and mirrors the `TypeError` the
source would raise with a grammar error. -/
def parse_atom : Nat → List String → List OptionP →
    Except DocErr (List Pattern × List String × List OptionP)
  | 0, _, _ => .error (.lang "pattern parser fuel exhausted")
  | fuel + 1, tokens, options =>
    match tokens with
    | [] => .error (.lang "unexpected end of pattern")
    | t :: rest =>
      if t = "(" ∨ t = "[" then
        match parse_expr fuel rest options with
        | .error e => .error e
        | .ok (expr, tokens1, opts1) =>
          let matching := if t = "(" then ")" else "]"
          let node : Pattern :=
            if t = "(" then .required (Patterns.ofList expr)
            else .optional (Patterns.ofList expr)
          match tokens1 with
          | m :: tokens2 =>
            if m = matching then .ok ([node], tokens2, opts1)
            else .error (.lang ("unmatched '" ++ t ++ "'"))
          | [] => .error (.lang ("unmatched '" ++ t ++ "'"))
      else if t = "options" then .ok ([.optionsShortcut .nil], rest, options)
      else if pyStartsWith t "--" ∧ t ≠ "--" then
        match parse_long false t rest.head? options with
        | .error e => .error e
        | .ok (o, consumed, opts') =>
          .ok ([.option o], if consumed then rest.tail else rest, opts')
      else if pyStartsWith t "-" ∧ t ≠ "-" ∧ t ≠ "--" then
        match parse_shorts false t rest.head? options with
        | .error e => .error e
        | .ok (os, consumed, opts') =>
          .ok (os.map .option, if consumed then rest.tail else rest, opts')
      else if (pyStartsWith t "<" ∧ pyEndsWith t ">") ∨ pyIsUpper t then
        .ok ([.argument (some t) .none], rest, options)
      else .ok ([.command (some t) (.bool false)], rest, options)
end

/-- The `parse_pattern` function: tokenize, parse an expression, require the
token stream to be exhausted, and wrap the result in a `Required`.  The parser
mutates the option registry (unknown grammar options are registered), so the
extended registry is returned alongside the tree. -/
def parse_pattern (source : String) (options : List OptionP) :
    Except DocErr (Pattern × List OptionP) :=
  let tokens := fromPattern source
  match parse_expr (4 * tokens.length + 16) tokens options with
  | .error e => .error e
  | .ok (result, remaining, opts') =>
    if remaining ≠ [] then
      .error (.lang ("unexpected ending: " ++ String.intercalate " " remaining))
    else .ok (.required (Patterns.ofList result), opts')

/-- The `while` loop of `parse_argv`, with explicit fuel (one unit per loop
iteration).  A `--` token turns the whole remaining stream (the `--` itself
included: the source iterates over `tokens` while `--` is still its first
element) into positional `Argument`s; `--`-prefixed tokens go to `parse_long`,
single-`-` runs to `parse_shorts`; under `options_first` the first positional
ends option scanning.  Every iteration consumes at least one token, so the
wrapper's fuel `tokens.length + 1` is never exhausted. -/
def parse_argvF : Nat → List String → List OptionP → Bool →
    Except DocErr (List Pattern × List OptionP)
  | 0, _, _, _ => .error (.lang "argv parser fuel exhausted")
  | fuel + 1, tokens, opts, options_first =>
    match tokens with
    | [] => .ok ([], opts)
    | t :: rest =>
      if t = "--" then
        .ok ((t :: rest).map fun v => .argument none (.str v), opts)
      else if pyStartsWith t "--" then
        match parse_long true t rest.head? opts with
        | .error e => .error e
        | .ok (o, consumed, opts') =>
          match rest, consumed with
          | _ :: rs, true =>
            match parse_argvF fuel rs opts' options_first with
            | .error e => .error e
            | .ok (ps, opts'') => .ok (.option o :: ps, opts'')
          | r :: rs, false =>
            match parse_argvF fuel (r :: rs) opts' options_first with
            | .error e => .error e
            | .ok (ps, opts'') => .ok (.option o :: ps, opts'')
          | [], _ => .ok ([.option o], opts')
      else if pyStartsWith t "-" ∧ t ≠ "-" then
        match parse_shorts true t rest.head? opts with
        | .error e => .error e
        | .ok (os, consumed, opts') =>
          match rest, consumed with
          | _ :: rs, true =>
            match parse_argvF fuel rs opts' options_first with
            | .error e => .error e
            | .ok (ps, opts'') => .ok (os.map .option ++ ps, opts'')
          | r :: rs, false =>
            match parse_argvF fuel (r :: rs) opts' options_first with
            | .error e => .error e
            | .ok (ps, opts'') => .ok (os.map .option ++ ps, opts'')
          | [], _ => .ok (os.map .option, opts')
      else if options_first then
        .ok ((t :: rest).map fun v => .argument none (.str v), opts)
      else
        match parse_argvF fuel rest opts options_first with
        | .error e => .error e
        | .ok (ps, opts') => .ok (.argument none (.str t) :: ps, opts')

/-- The `parse_argv` function: the loop at its (always sufficient) fuel. -/
def parse_argv (tokens : List String) (opts : List OptionP)
    (options_first : Bool) : Except DocErr (List Pattern × List OptionP) :=
  parse_argvF (tokens.length + 1) tokens opts options_first

/-- The `extras` function: help / version short-circuits, keyed on the parsed
argv leaves (`o.name in ('-h', '--help') and o.value`). -/
def extras (help : Bool) (version : Option String) (parsed : List Pattern) :
    Option DocErr :=
  let versionTruthy : Bool :=
    match version with
    | some s => ¬s.isEmpty
    | none => false
  if help ∧ parsed.any (fun o => (o.name = some "-h" ∨ o.name = some "--help") ∧
      o.value.truthy) then
    some .help
  else if versionTruthy ∧
      parsed.any (fun o => o.name = some "--version" ∧ o.value.truthy) then
    some .version
  else none

mutual
/-- Population of `[options]` shortcuts (`options_shortcut.children = ...` in
`docopt`).  The source recomputes `pattern.flat(Option)` inside the loop, so
after the first shortcut receives the missing options every later shortcut
computes an empty difference; the `done` flag renders that. -/
def Pattern.fillSC (newCs : Patterns) : Pattern → Bool → Pattern × Bool
  | .optionsShortcut _, done =>
    if done then (.optionsShortcut .nil, true) else (.optionsShortcut newCs, true)
  | .required cs, done =>
    let r := Patterns.fillSCList newCs cs done
    (.required r.1, r.2)
  | .optional cs, done =>
    let r := Patterns.fillSCList newCs cs done
    (.optional r.1, r.2)
  | .oneOrMore cs, done =>
    let r := Patterns.fillSCList newCs cs done
    (.oneOrMore r.1, r.2)
  | .either cs, done =>
    let r := Patterns.fillSCList newCs cs done
    (.either r.1, r.2)
  | p, done => (p, done)

/-- Threading of the `done` flag across a child list, left to right. -/
def Patterns.fillSCList (newCs : Patterns) : Patterns → Bool → Patterns × Bool
  | .nil, done => (.nil, done)
  | .cons p ps, done =>
    let r := Pattern.fillSC newCs p done
    let r2 := Patterns.fillSCList newCs ps r.2
    (.cons r.1 r2.1, r2.2)
end

/-- The `[options]` fix-up of `docopt`: the declared options not spelled out in
the pattern (`set(doc_options) - set(pattern_options)`; Python's set iteration
order is unspecified, rendered here as first-occurrence order). -/
def applyShortcuts (p : Pattern) (doc : String) : Pattern :=
  let patternOptions := Pattern.flat [.option] p
  let docOptions := ((parse_defaults doc).map Pattern.option).eraseDups
  let newChildren := docOptions.filter fun o => o ∉ patternOptions
  (p.fillSC (Patterns.ofList newChildren) false).1

/-- Python-`dict` insertion: an existing key is updated in place, a new key is
appended. -/
def dictInsert : List (Option String × PyValue) → Option String → PyValue →
    List (Option String × PyValue)
  | [], k, v => [(k, v)]
  | (k', v') :: rest, k, v =>
    if k' = k then (k', v) :: rest else (k', v') :: dictInsert rest k v

/-- The result assembly `ParsedOptionsDict([(a.name, a.value) for a in ...])`. -/
def dictOfLeaves (leaves : List Pattern) : List (Option String × PyValue) :=
  leaves.foldl (fun d a => dictInsert d a.name a.value) []

/-- The tail of `docopt` after the usage-section check: registry, grammar
parse, argv parse (on a copy of the registry, whose argv-time registrations
are discarded), `[options]` fix-up, `extras` short-circuit, normalization,
matching, and result assembly or `DocoptExit`. -/
def docoptAfterUsage (usage doc : String) (argv : List String) (help : Bool)
    (version : Option String) (options_first : Bool) :
    Except DocErr (List (Option String × PyValue)) :=
  let options := parse_defaults doc
  match parse_pattern (formal_usage usage) options with
  | .error e => .error e
  | .ok (pattern0, options') =>
    match parse_argv argv options' options_first with
    | .error e => .error e
    | .ok (parsed_argv, _) =>
      let pattern := applyShortcuts pattern0 doc
      match extras help version parsed_argv with
      | some e => .error e
      | none =>
        let fixed := pattern.fix
        let r := fixed.match' parsed_argv []
        if r.1 ∧ r.2.1 = [] then
          .ok (dictOfLeaves (Pattern.flat [] fixed ++ r.2.2))
        else if r.2.1 ≠ [] then
          .error (.exit "Warning: found unmatched (duplicate?) arguments.")
        else .error (.exit "")

/-- The `docopt` entry point: exactly one `<usage>...</usage>` section is
required (zero or several raise `DocoptLanguageError`), then the pipeline
proceeds on that section. -/
def docopt (doc : String) (argv : List String) (help : Bool)
    (version : Option String) (options_first : Bool) :
    Except DocErr (List (Option String × PyValue)) :=
  match parse_section "usage" doc with
  | [] => .error (.lang "'Usage:' (case-insensitive) section not found.")
  | [usage] => docoptAfterUsage usage doc argv help version options_first
  | _ :: _ :: _ => .error (.lang "More than one 'Usage:' (case-insensitive) section.")


/-! Stage values for the concrete C1 evaluation scenario (the elaborator
cannot reduce the composed pipeline in one pass, so the evaluation is staged:
each stage is established by `decide` and the stages are chained by
rewriting). -/

/-- The grammar description of the C1 scenario. -/
def c1doc : String :=
  "<usage>\nmy_program tcp <host> <port> [--timeout=<seconds>]\nmy_program (-h | --help | --version)\n</usage>"

/-- The argv of the C1 scenario. -/
def c1argv : List String := ["tcp", "127.0.0.1", "80", "--timeout", "30"]

/-- The extracted usage section of the C1 scenario. -/
def c1usage : String :=
  "\nmy_program tcp <host> <port> [--timeout=<seconds>]\nmy_program (-h | --help | --version)\n"

/-- The parsed C1 grammar tree. -/
def c1pat : Pattern :=
  match parse_pattern (formal_usage c1usage) (parse_defaults c1doc) with
  | .ok (p, _) => p
  | .error _ => .required .nil

/-- The C1 option registry after grammar parsing. -/
def c1opts : List OptionP :=
  match parse_pattern (formal_usage c1usage) (parse_defaults c1doc) with
  | .ok (_, o) => o
  | .error _ => []

/-- The parsed C1 argv leaves. -/
def c1leaves : List Pattern :=
  match parse_argv c1argv c1opts false with
  | .ok (p, _) => p
  | .error _ => []

/-- The normalized C1 grammar tree. -/
def c1patf : Pattern := (applyShortcuts c1pat c1doc).fix

/-- The collected leaves of the C1 match. -/
def c1coll : List Pattern := (c1patf.match' c1leaves []).2.2

end Docopt

namespace Docopt

/-- Round trip of the child-list conversions. -/
theorem Patterns.toList_ofList (l : List Pattern) : (Patterns.ofList l).toList = l := by
  induction l with
  | nil => rfl
  | cons p ps ih => simp [Patterns.ofList, Patterns.toList, ih]


/-! Structural lemmas about the matcher, by strong induction on `psize`. -/

/-- List-style induction principle for `Patterns`. -/
@[induction_eliminator]
theorem Patterns.inductionOn {motive : Patterns → Prop} (hnil : motive .nil)
    (hcons : ∀ head tail, motive tail → motive (.cons head tail)) :
    ∀ cs : Patterns, motive cs
  | .nil => hnil
  | .cons p ps => hcons p ps (Patterns.inductionOn hnil hcons ps)

theorem Pattern.psize_pos (p : Pattern) : 0 < p.psize := by
  cases p <;> simp only [Pattern.psize] <;> omega

theorem Patterns.psize_le_of_mem {q : Pattern} :
    ∀ {cs : Patterns}, q ∈ cs.toList → q.psize ≤ Patterns.psizeList cs := by
  intro cs
  induction cs with
  | hnil => intro h; simp [Patterns.toList] at h
  | hcons p ps ih =>
    intro h
    simp only [Patterns.toList, List.mem_cons] at h
    rcases h with h | h
    · subst h; simp only [Patterns.psizeList]; omega
    · have := ih h; simp only [Patterns.psizeList]; omega

theorem findArg_lt :
    ∀ (l : List Pattern) (i j : Nat) (q : Pattern), findArg l i = some (j, q) → j < i + l.length := by
  intro l
  induction l with
  | nil => intro i j q h; simp [findArg] at h
  | cons x xs ih =>
    intro i j q h
    cases x <;>
      simp only [findArg, Option.some.injEq, Prod.mk.injEq, List.length_cons] at h ⊢
    case argument n v => omega
    all_goals have h9 := ih (i + 1) j q h
    all_goals omega

theorem findByName_lt (nm : Option String) :
    ∀ (l : List Pattern) (i j : Nat) (q : Pattern),
      findByName nm l i = some (j, q) → j < i + l.length := by
  intro l
  induction l with
  | nil => intro i j q h; simp [findByName] at h
  | cons x xs ih =>
    intro i j q h
    simp only [findByName, List.length_cons] at h ⊢
    split at h
    · simp only [Option.some.injEq, Prod.mk.injEq] at h
      omega
    · have := ih (i + 1) j q h; omega

theorem singleMatch_lt {p : Pattern} {l : List Pattern} {pos : Nat} {m : Pattern}
    (h : singleMatch p l = some (pos, m)) : pos < l.length := by
  cases p with
  | argument n v =>
    rcases hf : findArg l 0 with _ | ⟨i, q⟩ <;> simp only [singleMatch, hf] at h
    · exact absurd h (by simp)
    · simp only [Option.some.injEq, Prod.mk.injEq] at h
      have := findArg_lt l 0 i q hf; omega
  | command n v =>
    rcases hf : findArg l 0 with _ | ⟨i, q⟩ <;> simp only [singleMatch, hf] at h
    · exact absurd h (by simp)
    · split at h
      · simp only [Option.some.injEq, Prod.mk.injEq] at h
        have := findArg_lt l 0 i q hf; omega
      · exact absurd h (by simp)
  | option o =>
    simp only [singleMatch] at h
    have := findByName_lt (Pattern.option o).name l 0 pos m h; omega
  | required cs => simp [singleMatch] at h
  | optional cs => simp [singleMatch] at h
  | optionsShortcut cs => simp [singleMatch] at h
  | oneOrMore cs => simp [singleMatch] at h
  | either cs => simp [singleMatch] at h

theorem takeDrop_sublist : ∀ (l : List Pattern) (pos : Nat),
    (l.take pos ++ l.drop (pos + 1)).Sublist l := by
  intro l
  induction l with
  | nil => intro pos; simp
  | cons x xs ih =>
    intro pos
    cases pos with
    | zero => simp only [List.take_zero, List.nil_append, List.drop_succ_cons,
        List.drop_zero]; exact List.sublist_cons_self x xs
    | succ k =>
      simp only [List.take_succ_cons, List.drop_succ_cons, List.cons_append]
      exact (ih k).cons₂ x

theorem takeDrop_length {l : List Pattern} {pos : Nat} (h : pos < l.length) :
    (l.take pos ++ l.drop (pos + 1)).length = l.length - 1 := by
  simp only [List.length_append, List.length_take, List.length_drop]
  omega

theorem leafMatch_of_single_none {p : Pattern} {l c : List Pattern}
    (h : singleMatch p l = none) : leafMatch p l c = (false, l, c) := by
  simp [leafMatch, h]

theorem leafMatch_of_single_some {p : Pattern} {l c : List Pattern} {pos : Nat} {m : Pattern}
    (h : singleMatch p l = some (pos, m)) :
    ∃ c', leafMatch p l c = (true, l.take pos ++ l.drop (pos + 1), c') := by
  simp only [leafMatch, h]
  split_ifs <;> exact ⟨_, rfl⟩

theorem matchRequired_fail :
    ∀ (cs : Patterns) (l c l0 c0 : List Pattern),
      (Patterns.matchRequired cs l c l0 c0).1 = false →
      Patterns.matchRequired cs l c l0 c0 = (false, l0, c0) := by
  intro cs
  induction cs with
  | hnil => intro l c l0 c0 h; simp [Patterns.matchRequired] at h
  | hcons p ps ih =>
    intro l c l0 c0 h
    by_cases hr : (p.match' l c).1 = true
    · simp only [Patterns.matchRequired, if_pos hr] at h ⊢
      exact ih _ _ _ _ h
    · simp only [Patterns.matchRequired, if_neg hr]

theorem matchRequired_restore :
    ∀ (cs : Patterns) (l c l0 c0 : List Pattern),
      Patterns.matchRequired cs l c l0 c0 =
        (if (Patterns.matchRequired cs l c l c).1 = true then Patterns.matchRequired cs l c l c
         else (false, l0, c0)) := by
  intro cs
  induction cs with
  | hnil => intro l c l0 c0; simp [Patterns.matchRequired]
  | hcons p ps ih =>
    intro l c l0 c0
    simp only [Patterns.matchRequired]
    by_cases hr : (p.match' l c).1 = true
    · simp only [if_pos hr]
      rw [ih (p.match' l c).2.1 (p.match' l c).2.2 l0 c0,
        ih (p.match' l c).2.1 (p.match' l c).2.2 l c]
      by_cases hq :
        (Patterns.matchRequired ps (p.match' l c).2.1 (p.match' l c).2.2
          (p.match' l c).2.1 (p.match' l c).2.2).1 = true
      · simp [hq]
      · simp [hq]
    · simp [hr]

theorem matchRequired_sublist {cs : Patterns}
    (hS : ∀ q ∈ cs.toList, ∀ l c, ((q.match' l c).2.1).Sublist l) :
    ∀ (l c l0 c0 : List Pattern),
      ((Patterns.matchRequired cs l c l0 c0).2.1).Sublist l ∨
      Patterns.matchRequired cs l c l0 c0 = (false, l0, c0) := by
  induction cs with
  | hnil => intro l c l0 c0; left; simp [Patterns.matchRequired]
  | hcons p ps ih =>
    intro l c l0 c0
    have hp : ∀ l c, ((p.match' l c).2.1).Sublist l := fun l c =>
      hS p (by simp [Patterns.toList]) l c
    have hps : ∀ q ∈ ps.toList, ∀ l c, ((q.match' l c).2.1).Sublist l := fun q hq =>
      hS q (by simp [Patterns.toList, hq])
    simp only [Patterns.matchRequired]
    by_cases hr : (p.match' l c).1 = true
    · simp only [if_pos hr]
      rcases ih hps (p.match' l c).2.1 (p.match' l c).2.2 l0 c0 with h | h
      · left; exact h.trans (hp l c)
      · right; exact h
    · simp [if_neg hr]

theorem matchOptional_sublist {cs : Patterns}
    (hS : ∀ q ∈ cs.toList, ∀ l c, ((q.match' l c).2.1).Sublist l) :
    ∀ (l c : List Pattern), ((Patterns.matchOptional cs l c).1).Sublist l := by
  induction cs with
  | hnil => intro l c; simp [Patterns.matchOptional]
  | hcons p ps ih =>
    intro l c
    have hp : ((p.match' l c).2.1).Sublist l := hS p (by simp [Patterns.toList]) l c
    have hps : ∀ q ∈ ps.toList, ∀ l c, ((q.match' l c).2.1).Sublist l := fun q hq =>
      hS q (by simp [Patterns.toList, hq])
    simp only [Patterns.matchOptional]
    exact (ih hps (p.match' l c).2.1 (p.match' l c).2.2).trans hp

theorem eitherOutcomes_eq :
    ∀ (cs : Patterns) (l c : List Pattern),
      Patterns.eitherOutcomes cs l c =
        (cs.toList.map fun q => q.match' l c).filter fun r => r.1 := by
  intro cs
  induction cs with
  | hnil => intro l c; simp [Patterns.eitherOutcomes, Patterns.toList]
  | hcons p ps ih =>
    intro l c
    simp only [Patterns.eitherOutcomes, Patterns.toList, List.map_cons, List.filter_cons]
    by_cases hr : (p.match' l c).1 = true
    · simp [hr, ih l c]
    · simp [hr, ih l c]

theorem eitherOutcomes_true {cs : Patterns} {l c : List Pattern} :
    ∀ x ∈ Patterns.eitherOutcomes cs l c, x.1 = true := by
  intro x hx
  rw [eitherOutcomes_eq] at hx
  exact (List.mem_filter.mp hx).2

theorem eitherOutcomes_mem {cs : Patterns} {l c : List Pattern} :
    ∀ x ∈ Patterns.eitherOutcomes cs l c, ∃ q ∈ cs.toList, x = q.match' l c := by
  intro x hx
  rw [eitherOutcomes_eq] at hx
  obtain ⟨hx, _⟩ := List.mem_filter.mp hx
  obtain ⟨q, hq, hxq⟩ := List.mem_map.mp hx
  exact ⟨q, hq, hxq.symm⟩

theorem minOutcome_spec :
    ∀ (os : List MState) (best : MState),
      ∃ pre x post, best :: os = pre ++ x :: post ∧ minOutcome best os = x ∧
        (∀ y ∈ pre, x.2.1.length < y.2.1.length) ∧
        (∀ y ∈ best :: os, x.2.1.length ≤ y.2.1.length) := by
  intro os
  induction os with
  | nil =>
    intro best
    exact ⟨[], best, [], rfl, rfl, by simp, by simp⟩
  | cons o os ih =>
    intro best
    simp only [minOutcome]
    by_cases h : o.2.1.length < best.2.1.length
    · simp only [if_pos h]
      obtain ⟨pre, x, post, hdec, hmin, hstrict, hle⟩ := ih o
      refine ⟨best :: pre, x, post, by rw [List.cons_append, ← hdec], hmin, ?_, ?_⟩
      · intro y hy
        rcases List.mem_cons.mp hy with hy | hy
        · subst hy
          exact lt_of_le_of_lt (hle o (by simp)) h
        · exact hstrict y hy
      · intro y hy
        rcases List.mem_cons.mp hy with hy | hy
        · subst hy
          exact le_of_lt (lt_of_le_of_lt (hle o (by simp)) h)
        · exact hle y hy
    · simp only [if_neg h]
      obtain ⟨pre, x, post, hdec, hmin, hstrict, hle⟩ := ih best
      cases pre with
      | nil =>
        simp only [List.nil_append] at hdec
        obtain ⟨hx, hpost⟩ := List.cons_eq_cons.mp hdec
        subst hx
        refine ⟨[], best, o :: os, by simp, hmin, by simp, ?_⟩
        intro y hy
        rcases List.mem_cons.mp hy with hy | hy
        · subst hy; exact le_refl _
        · rcases List.mem_cons.mp hy with hy | hy
          · subst hy; omega
          · exact hle y (List.mem_cons_of_mem _ hy)
      | cons b pre' =>
        simp only [List.cons_append] at hdec
        obtain ⟨hb, hos⟩ := List.cons_eq_cons.mp hdec
        subst hb
        have hxb : x.2.1.length < best.2.1.length := hstrict best (by simp)
        refine ⟨best :: o :: pre', x, post, by simp [hos], hmin, ?_, ?_⟩
        · intro y hy
          rcases List.mem_cons.mp hy with hy | hy
          · subst hy; exact hxb
          · rcases List.mem_cons.mp hy with hy | hy
            · subst hy; omega
            · exact hstrict y (List.mem_cons_of_mem _ hy)
        · intro y hy
          rcases List.mem_cons.mp hy with hy | hy
          · subst hy; exact le_of_lt hxb
          · rcases List.mem_cons.mp hy with hy | hy
            · subst hy; omega
            · exact hle y (List.mem_cons_of_mem _ hy)

theorem minOutcome_mem (best : MState) (os : List MState) :
    minOutcome best os ∈ best :: os := by
  obtain ⟨pre, x, post, hdec, hmin, _, _⟩ := minOutcome_spec os best
  rw [hmin, hdec]
  simp

theorem oomRun_sublist {step : List Pattern → List Pattern → MState}
    (hS : ∀ l c, ((step l c).2.1).Sublist l) :
    ∀ (fuel : Nat) (l c : List Pattern) (lp : Option (List Pattern)) (t : Nat),
      ((oomRun step fuel l c lp t).1.2.1).Sublist l := by
  intro fuel
  induction fuel with
  | zero => intro l c lp t; simp [oomRun]
  | succ fuel ih =>
    intro l c lp t
    simp only [oomRun]
    split
    · exact hS l c
    · split
      · exact (ih (step l c).2.1 (step l c).2.2 _ _).trans (hS l c)
      · exact hS l c

theorem match'_left_sublist : ∀ (p : Pattern) (l c : List Pattern),
    ((p.match' l c).2.1).Sublist l := by
  suffices H : ∀ (n : Nat) (p : Pattern), p.psize ≤ n → ∀ l c : List Pattern,
      ((p.match' l c).2.1).Sublist l from fun p => H p.psize p le_rfl
  intro n
  induction n with
  | zero => intro p hp; have := p.psize_pos; omega
  | succ n ih =>
    intro p hp l c
    cases p with
    | argument nm v =>
      show ((leafMatch (.argument nm v) l c).2.1).Sublist l
      rcases h : singleMatch (.argument nm v) l with _ | ⟨pos, m⟩
      · rw [leafMatch_of_single_none h]
      · obtain ⟨c', hc⟩ := leafMatch_of_single_some (c := c) h
        rw [hc]
        exact takeDrop_sublist l pos
    | command nm v =>
      show ((leafMatch (.command nm v) l c).2.1).Sublist l
      rcases h : singleMatch (.command nm v) l with _ | ⟨pos, m⟩
      · rw [leafMatch_of_single_none h]
      · obtain ⟨c', hc⟩ := leafMatch_of_single_some (c := c) h
        rw [hc]
        exact takeDrop_sublist l pos
    | option o =>
      show ((leafMatch (.option o) l c).2.1).Sublist l
      rcases h : singleMatch (.option o) l with _ | ⟨pos, m⟩
      · rw [leafMatch_of_single_none h]
      · obtain ⟨c', hc⟩ := leafMatch_of_single_some (c := c) h
        rw [hc]
        exact takeDrop_sublist l pos
    | required cs =>
      have hq : ∀ q ∈ cs.toList, ∀ l c, ((q.match' l c).2.1).Sublist l := by
        intro q hmem
        have h1 : q.psize ≤ Patterns.psizeList cs := Patterns.psize_le_of_mem hmem
        have h2 : Pattern.psize (.required cs) = 1 + Patterns.psizeList cs := rfl
        exact ih q (by omega)
      show ((Patterns.matchRequired cs l c l c).2.1).Sublist l
      rcases matchRequired_sublist hq l c l c with h | h
      · exact h
      · rw [h]
    | optional cs =>
      have hq : ∀ q ∈ cs.toList, ∀ l c, ((q.match' l c).2.1).Sublist l := by
        intro q hmem
        have h1 : q.psize ≤ Patterns.psizeList cs := Patterns.psize_le_of_mem hmem
        have h2 : Pattern.psize (.optional cs) = 1 + Patterns.psizeList cs := rfl
        exact ih q (by omega)
      show ((Patterns.matchOptional cs l c).1).Sublist l
      exact matchOptional_sublist hq l c
    | optionsShortcut cs =>
      have hq : ∀ q ∈ cs.toList, ∀ l c, ((q.match' l c).2.1).Sublist l := by
        intro q hmem
        have h1 : q.psize ≤ Patterns.psizeList cs := Patterns.psize_le_of_mem hmem
        have h2 : Pattern.psize (.optionsShortcut cs) = 1 + Patterns.psizeList cs := rfl
        exact ih q (by omega)
      show ((Patterns.matchOptional cs l c).1).Sublist l
      exact matchOptional_sublist hq l c
    | oneOrMore cs =>
      cases cs with
      | nil => simp [Pattern.match']
      | cons child tail =>
        cases tail with
        | nil =>
          have hchild : ∀ l c, ((child.match' l c).2.1).Sublist l := by
            intro l c
            have h1 : child.psize ≤ Patterns.psizeList (.cons child .nil) := by
              simp only [Patterns.psizeList]; omega
            have h2 : Pattern.psize (.oneOrMore (.cons child .nil)) =
              1 + Patterns.psizeList (.cons child .nil) := rfl
            exact ih child (by omega) l c
          simp only [Pattern.match']
          split
          · exact oomRun_sublist hchild (l.length + 2) l c none 0
          · simp
        | cons q tail' => simp [Pattern.match']
    | either cs =>
      have hq : ∀ q ∈ cs.toList, ∀ l c, ((q.match' l c).2.1).Sublist l := by
        intro q hmem
        have h1 : q.psize ≤ Patterns.psizeList cs := Patterns.psize_le_of_mem hmem
        have h2 : Pattern.psize (.either cs) = 1 + Patterns.psizeList cs := rfl
        exact ih q (by omega)
      simp only [Pattern.match']
      rcases ho : Patterns.eitherOutcomes cs l c with _ | ⟨o, os⟩
      · simp
      · have hmem := minOutcome_mem o os
        rw [← ho] at hmem
        obtain ⟨q, hqmem, hx⟩ := eitherOutcomes_mem _ hmem
        show ((minOutcome o os).2.1).Sublist l
        rw [hx]
        exact hq q hqmem l c

theorem match'_fail : ∀ (p : Pattern) (l c : List Pattern),
    (p.match' l c).1 = false → p.match' l c = (false, l, c) := by
  intro p l c h
  cases p with
  | argument nm v =>
    rcases hs : singleMatch (.argument nm v) l with _ | ⟨pos, m⟩
    · exact leafMatch_of_single_none hs
    · obtain ⟨c', hc⟩ := leafMatch_of_single_some (c := c) hs
      rw [show (Pattern.argument nm v).match' l c = leafMatch (.argument nm v) l c from rfl,
        hc] at h
      simp at h
  | command nm v =>
    rcases hs : singleMatch (.command nm v) l with _ | ⟨pos, m⟩
    · exact leafMatch_of_single_none hs
    · obtain ⟨c', hc⟩ := leafMatch_of_single_some (c := c) hs
      rw [show (Pattern.command nm v).match' l c = leafMatch (.command nm v) l c from rfl,
        hc] at h
      simp at h
  | option o =>
    rcases hs : singleMatch (.option o) l with _ | ⟨pos, m⟩
    · exact leafMatch_of_single_none hs
    · obtain ⟨c', hc⟩ := leafMatch_of_single_some (c := c) hs
      rw [show (Pattern.option o).match' l c = leafMatch (.option o) l c from rfl, hc] at h
      simp at h
  | required cs => exact matchRequired_fail cs l c l c h
  | optional cs => simp [Pattern.match'] at h
  | optionsShortcut cs => simp [Pattern.match'] at h
  | oneOrMore cs =>
    cases cs with
    | nil => simp [Pattern.match']
    | cons child tail =>
      cases tail with
      | nil =>
        simp only [Pattern.match'] at h ⊢
        split at h
        · simp at h
        · split
          · omega
          · rfl
      | cons q tail' => simp [Pattern.match']
  | either cs =>
    simp only [Pattern.match'] at h ⊢
    rcases ho : Patterns.eitherOutcomes cs l c with _ | ⟨o, os⟩
    · rfl
    · rw [ho] at h
      have hmem := minOutcome_mem o os
      rw [← ho] at hmem
      have := eitherOutcomes_true _ hmem
      rw [h] at this
      simp at this

theorem matchRequired_L {cs : Patterns}
    (hS : ∀ q ∈ cs.toList, ∀ l c, ((q.match' l c).2.1).Sublist l)
    (hL : ∀ q ∈ cs.toList, ∀ l c, (q.match' l c).2.1 = l → (q.match' l c).2.2 = c) :
    ∀ (l c l0 c0 : List Pattern),
      (Patterns.matchRequired cs l c l0 c0).1 = true →
      (Patterns.matchRequired cs l c l0 c0).2.1 = l →
      (Patterns.matchRequired cs l c l0 c0).2.2 = c := by
  induction cs with
  | hnil => intro l c l0 c0 _ _; simp [Patterns.matchRequired]
  | hcons p ps ih =>
    intro l c l0 c0 hm hl
    have hp : ∀ l c, ((p.match' l c).2.1).Sublist l := fun l c =>
      hS p (by simp [Patterns.toList]) l c
    have hpL : ∀ l c, (p.match' l c).2.1 = l → (p.match' l c).2.2 = c := fun l c =>
      hL p (by simp [Patterns.toList]) l c
    have hpsS : ∀ q ∈ ps.toList, ∀ l c, ((q.match' l c).2.1).Sublist l := fun q hq =>
      hS q (by simp [Patterns.toList, hq])
    have hpsL : ∀ q ∈ ps.toList, ∀ l c, (q.match' l c).2.1 = l → (q.match' l c).2.2 = c :=
      fun q hq => hL q (by simp [Patterns.toList, hq])
    by_cases hr : (p.match' l c).1 = true
    · simp only [Patterns.matchRequired, if_pos hr] at hm hl ⊢
      have hres : ((Patterns.matchRequired ps (p.match' l c).2.1 (p.match' l c).2.2
          l0 c0).2.1).Sublist (p.match' l c).2.1 := by
        rcases matchRequired_sublist hpsS (p.match' l c).2.1 (p.match' l c).2.2 l0 c0 with
          h | h
        · exact h
        · rw [h] at hm; simp at hm
      have hsub : ((p.match' l c).2.1).Sublist l := hp l c
      have h21 : (p.match' l c).2.1 = l := by
        have h1 := hres.length_le
        have h2 := hsub.length_le
        rw [hl] at h1
        exact hsub.eq_of_length (by omega)
      have h22 : (p.match' l c).2.2 = c := hpL l c h21
      rw [h21, h22] at hm hl ⊢
      exact ih hpsS hpsL l c l0 c0 hm hl
    · simp only [Patterns.matchRequired, if_neg hr] at hm
      simp at hm

theorem matchOptional_L {cs : Patterns}
    (hS : ∀ q ∈ cs.toList, ∀ l c, ((q.match' l c).2.1).Sublist l)
    (hL : ∀ q ∈ cs.toList, ∀ l c, (q.match' l c).2.1 = l → (q.match' l c).2.2 = c) :
    ∀ (l c : List Pattern),
      (Patterns.matchOptional cs l c).1 = l → (Patterns.matchOptional cs l c).2 = c := by
  induction cs with
  | hnil => intro l c _; simp [Patterns.matchOptional]
  | hcons p ps ih =>
    intro l c hl
    have hp : ((p.match' l c).2.1).Sublist l := hS p (by simp [Patterns.toList]) l c
    have hpL : (p.match' l c).2.1 = l → (p.match' l c).2.2 = c :=
      hL p (by simp [Patterns.toList]) l c
    have hpsS : ∀ q ∈ ps.toList, ∀ l c, ((q.match' l c).2.1).Sublist l := fun q hq =>
      hS q (by simp [Patterns.toList, hq])
    have hpsL : ∀ q ∈ ps.toList, ∀ l c, (q.match' l c).2.1 = l → (q.match' l c).2.2 = c :=
      fun q hq => hL q (by simp [Patterns.toList, hq])
    simp only [Patterns.matchOptional] at hl ⊢
    have hres : ((Patterns.matchOptional ps (p.match' l c).2.1
        (p.match' l c).2.2).1).Sublist (p.match' l c).2.1 :=
      matchOptional_sublist hpsS _ _
    have h21 : (p.match' l c).2.1 = l := by
      have h1 := hres.length_le
      have h2 := hp.length_le
      rw [hl] at h1
      exact hp.eq_of_length (by omega)
    have h22 : (p.match' l c).2.2 = c := hpL h21
    rw [h21, h22] at hl ⊢
    exact ih hpsS hpsL l c hl

theorem oomRun_L {step : List Pattern → List Pattern → MState}
    (hS : ∀ l c, ((step l c).2.1).Sublist l)
    (hL : ∀ l c, (step l c).2.1 = l → (step l c).2.2 = c) :
    ∀ (fuel : Nat) (l c : List Pattern) (lp : Option (List Pattern)) (t : Nat),
      (oomRun step fuel l c lp t).1.2.1 = l → (oomRun step fuel l c lp t).1.2.2 = c := by
  intro fuel
  induction fuel with
  | zero => intro l c lp t _; simp [oomRun]
  | succ fuel ih =>
    intro l c lp t hl
    simp only [oomRun] at hl ⊢
    split at hl <;> rename_i hbr
    · rw [if_pos hbr]
      exact hL l c hl
    · split at hl <;> rename_i hm
      · simp only [if_neg hbr, if_pos hm]
        have hres : ((oomRun step fuel (step l c).2.1 (step l c).2.2
            (some (step l c).2.1) (t + 1)).1.2.1).Sublist
            (step l c).2.1 := oomRun_sublist hS _ _ _ _ _
        have hsub : ((step l c).2.1).Sublist l := hS l c
        have h21 : (step l c).2.1 = l := by
          have h1 := hres.length_le
          have h2 := hsub.length_le
          rw [hl] at h1
          exact hsub.eq_of_length (by omega)
        have h22 : (step l c).2.2 = c := hL l c h21
        rw [h21, h22] at hl ⊢
        exact ih l c _ _ hl
      · simp only [if_neg hbr, if_neg hm]
        exact hL l c hl

theorem match'_collected_of_left_eq : ∀ (p : Pattern) (l c : List Pattern),
    (p.match' l c).2.1 = l → (p.match' l c).2.2 = c := by
  suffices H : ∀ (n : Nat) (p : Pattern), p.psize ≤ n → ∀ l c : List Pattern,
      (p.match' l c).2.1 = l → (p.match' l c).2.2 = c from fun p => H p.psize p le_rfl
  intro n
  induction n with
  | zero => intro p hp; have := p.psize_pos; omega
  | succ n ih =>
    intro p hp l c hl
    cases p with
    | argument nm v =>
      rcases hs : singleMatch (.argument nm v) l with _ | ⟨pos, m⟩
      · rw [show (Pattern.argument nm v).match' l c = leafMatch (.argument nm v) l c from
          rfl, leafMatch_of_single_none hs]
      · obtain ⟨c', hc⟩ := leafMatch_of_single_some (c := c) hs
        rw [show (Pattern.argument nm v).match' l c = leafMatch (.argument nm v) l c from
          rfl, hc] at hl
        have hlen := takeDrop_length (l := l) (singleMatch_lt hs)
        have hpos := singleMatch_lt hs
        simp only at hl
        rw [hl] at hlen
        omega
    | command nm v =>
      rcases hs : singleMatch (.command nm v) l with _ | ⟨pos, m⟩
      · rw [show (Pattern.command nm v).match' l c = leafMatch (.command nm v) l c from
          rfl, leafMatch_of_single_none hs]
      · obtain ⟨c', hc⟩ := leafMatch_of_single_some (c := c) hs
        rw [show (Pattern.command nm v).match' l c = leafMatch (.command nm v) l c from
          rfl, hc] at hl
        have hlen := takeDrop_length (l := l) (singleMatch_lt hs)
        have hpos := singleMatch_lt hs
        simp only at hl
        rw [hl] at hlen
        omega
    | option o =>
      rcases hs : singleMatch (.option o) l with _ | ⟨pos, m⟩
      · rw [show (Pattern.option o).match' l c = leafMatch (.option o) l c from rfl,
          leafMatch_of_single_none hs]
      · obtain ⟨c', hc⟩ := leafMatch_of_single_some (c := c) hs
        rw [show (Pattern.option o).match' l c = leafMatch (.option o) l c from rfl,
          hc] at hl
        have hlen := takeDrop_length (l := l) (singleMatch_lt hs)
        have hpos := singleMatch_lt hs
        simp only at hl
        rw [hl] at hlen
        omega
    | required cs =>
      have hqS : ∀ q ∈ cs.toList, ∀ l c, ((q.match' l c).2.1).Sublist l := fun q _ =>
        match'_left_sublist q
      have hqL : ∀ q ∈ cs.toList, ∀ l c, (q.match' l c).2.1 = l → (q.match' l c).2.2 = c := by
        intro q hmem
        have h1 : q.psize ≤ Patterns.psizeList cs := Patterns.psize_le_of_mem hmem
        have h2 : Pattern.psize (.required cs) = 1 + Patterns.psizeList cs := rfl
        exact ih q (by omega)
      by_cases hm : ((Pattern.required cs).match' l c).1 = true
      · exact matchRequired_L hqS hqL l c l c hm hl
      · rw [match'_fail _ l c (by simpa using hm)]
    | optional cs =>
      have hqS : ∀ q ∈ cs.toList, ∀ l c, ((q.match' l c).2.1).Sublist l := fun q _ =>
        match'_left_sublist q
      have hqL : ∀ q ∈ cs.toList, ∀ l c, (q.match' l c).2.1 = l → (q.match' l c).2.2 = c := by
        intro q hmem
        have h1 : q.psize ≤ Patterns.psizeList cs := Patterns.psize_le_of_mem hmem
        have h2 : Pattern.psize (.optional cs) = 1 + Patterns.psizeList cs := rfl
        exact ih q (by omega)
      exact matchOptional_L hqS hqL l c hl
    | optionsShortcut cs =>
      have hqS : ∀ q ∈ cs.toList, ∀ l c, ((q.match' l c).2.1).Sublist l := fun q _ =>
        match'_left_sublist q
      have hqL : ∀ q ∈ cs.toList, ∀ l c, (q.match' l c).2.1 = l → (q.match' l c).2.2 = c := by
        intro q hmem
        have h1 : q.psize ≤ Patterns.psizeList cs := Patterns.psize_le_of_mem hmem
        have h2 : Pattern.psize (.optionsShortcut cs) = 1 + Patterns.psizeList cs := rfl
        exact ih q (by omega)
      exact matchOptional_L hqS hqL l c hl
    | oneOrMore cs =>
      cases cs with
      | nil => simp [Pattern.match']
      | cons child tail =>
        cases tail with
        | nil =>
          have hcL : ∀ l c, (child.match' l c).2.1 = l → (child.match' l c).2.2 = c := by
            intro l c
            have h1 : child.psize ≤ Patterns.psizeList (.cons child .nil) := by
              simp only [Patterns.psizeList]; omega
            have h2 : Pattern.psize (.oneOrMore (.cons child .nil)) =
              1 + Patterns.psizeList (.cons child .nil) := rfl
            exact ih child (by omega) l c
          simp only [Pattern.match'] at hl ⊢
          split at hl <;> rename_i ht
          · rw [if_pos ht]
            exact oomRun_L (fun l c => match'_left_sublist child l c) hcL _ l c none 0 hl
          · rw [if_neg ht]
        | cons q tail' => simp [Pattern.match']
    | either cs =>
      have hqL : ∀ q ∈ cs.toList, ∀ l c, (q.match' l c).2.1 = l → (q.match' l c).2.2 = c := by
        intro q hmem
        have h1 : q.psize ≤ Patterns.psizeList cs := Patterns.psize_le_of_mem hmem
        have h2 : Pattern.psize (.either cs) = 1 + Patterns.psizeList cs := rfl
        exact ih q (by omega)
      simp only [Pattern.match'] at hl ⊢
      rcases ho : Patterns.eitherOutcomes cs l c with _ | ⟨o, os⟩
      · rfl
      · rw [ho] at hl
        have hmem := minOutcome_mem o os
        rw [← ho] at hmem
        obtain ⟨q, hqmem, hx⟩ := eitherOutcomes_mem _ hmem
        show (minOutcome o os).2.2 = c
        rw [hx]
        apply hqL q hqmem l c
        have hml : (minOutcome o os).2.1 = l := hl
        rw [hx] at hml
        exact hml

theorem oomRun_succ (step : List Pattern → List Pattern → MState) (fuel : Nat)
    (l c : List Pattern) (lp : Option (List Pattern)) (t : Nat) :
    oomRun step (fuel + 1) l c lp t =
      (let r := step l c
       let t' := if r.1 then t + 1 else t
       if lp = some r.2.1 then (r, t')
       else if r.1 then oomRun step fuel r.2.1 r.2.2 (some r.2.1) t'
       else (r, t')) := rfl

theorem oomRun_times_ge (step : List Pattern → List Pattern → MState) :
    ∀ (fuel : Nat) (l c : List Pattern) (lp : Option (List Pattern)) (t : Nat),
      t ≤ (oomRun step fuel l c lp t).2 := by
  intro fuel
  induction fuel with
  | zero => intro l c lp t; simp [oomRun]
  | succ fuel ih =>
    intro l c lp t
    rw [oomRun_succ]
    simp only []
    by_cases hbr : lp = some (step l c).2.1
    · rw [if_pos hbr]
      show t ≤ (if (step l c).1 = true then t + 1 else t)
      split <;> omega
    · rw [if_neg hbr]
      by_cases hm : (step l c).1 = true
      · simp only [hm, if_true]
        exact le_trans (by omega) (ih _ _ _ (t + 1))
      · simp only [hm, if_false]
        exact le_refl t

theorem oomRun_some_state_eq {step : List Pattern → List Pattern → MState}
    (hS : ∀ l c, ((step l c).2.1).Sublist l)
    (hR : ∀ l c, (step l c).1 = false → step l c = (false, l, c)) :
    ∀ (n : Nat) (l : List Pattern), l.length ≤ n →
      ∀ (c : List Pattern) (t₁ t₂ f₁ f₂ : Nat),
        l.length + 1 ≤ f₁ → l.length + 1 ≤ f₂ →
        (oomRun step f₁ l c (some l) t₁).1 = (oomRun step f₂ l c (some l) t₂).1 := by
  intro n
  induction n with
  | zero =>
    intro l hn c t₁ t₂ f₁ f₂ h₁ h₂
    obtain ⟨g₁, rfl⟩ : ∃ g₁, f₁ = g₁ + 1 := ⟨f₁ - 1, by omega⟩
    obtain ⟨g₂, rfl⟩ : ∃ g₂, f₂ = g₂ + 1 := ⟨f₂ - 1, by omega⟩
    rw [oomRun_succ, oomRun_succ]
    simp only []
    by_cases hbr : (step l c).2.1 = l
    · simp [hbr]
    · exfalso
      apply hbr
      have hle := (hS l c).length_le
      have hl0 : l = [] := List.length_eq_zero.mp (by omega)
      have : (step l c).2.1 = [] := List.sublist_nil.mp (hl0 ▸ hS l c)
      rw [this, hl0]
  | succ n ih =>
    intro l hn c t₁ t₂ f₁ f₂ h₁ h₂
    obtain ⟨g₁, rfl⟩ : ∃ g₁, f₁ = g₁ + 1 := ⟨f₁ - 1, by omega⟩
    obtain ⟨g₂, rfl⟩ : ∃ g₂, f₂ = g₂ + 1 := ⟨f₂ - 1, by omega⟩
    rw [oomRun_succ, oomRun_succ]
    simp only []
    by_cases hbr : (step l c).2.1 = l
    · simp [hbr]
    · have hm : (step l c).1 = true := by
        by_contra hm
        have := hR l c (by simpa using hm)
        rw [this] at hbr
        simp at hbr
      have hcond : ¬ (some l = some (step l c).2.1) :=
        fun hc => hbr (Option.some.inj hc).symm
      rw [if_neg hcond, if_neg hcond]
      simp only [hm, if_true]
      have hlen : (step l c).2.1.length < l.length := by
        have hle := (hS l c).length_le
        rcases lt_or_eq_of_le hle with h | h
        · exact h
        · exact absurd (List.Sublist.eq_of_length (hS l c) h) hbr
      exact ih (step l c).2.1 (by omega) (step l c).2.2 _ _ g₁ g₂ (by omega) (by omega)

theorem oomRun_none_vs {step : List Pattern → List Pattern → MState}
    (hS : ∀ l c, ((step l c).2.1).Sublist l)
    (hR : ∀ l c, (step l c).1 = false → step l c = (false, l, c))
    (hL : ∀ l c, (step l c).2.1 = l → (step l c).2.2 = c) :
    ∀ (l c : List Pattern) (t f₁ f₂ : Nat), l.length + 1 ≤ f₁ → l.length + 2 ≤ f₂ →
      (oomRun step f₁ l c (some l) t).1.2 =
        (if 1 ≤ (oomRun step f₂ l c none 0).2 then (oomRun step f₂ l c none 0).1.2
         else (l, c)) := by
  intro l c t f₁ f₂ h₁ h₂
  obtain ⟨g₁, rfl⟩ : ∃ g₁, f₁ = g₁ + 1 := ⟨f₁ - 1, by omega⟩
  obtain ⟨g₂, rfl⟩ : ∃ g₂, f₂ = g₂ + 1 := ⟨f₂ - 1, by omega⟩
  rw [oomRun_succ, oomRun_succ]
  simp only []
  by_cases hbr : (step l c).2.1 = l
  · have h22 : (step l c).2.2 = c := hL l c hbr
    by_cases hm : (step l c).1 = true
    · obtain ⟨g₃, rfl⟩ : ∃ g₃, g₂ = g₃ + 1 := ⟨g₂ - 1, by omega⟩
      rw [oomRun_succ]
      simp only []
      simp [hbr, hm, h22]
    · have hfail := hR l c (by simpa using hm)
      simp [hbr, hm, h22, hfail]
  · have hm : (step l c).1 = true := by
      by_contra hm
      have := hR l c (by simpa using hm)
      rw [this] at hbr
      simp at hbr
    have hcond : ¬ (some l = some (step l c).2.1) :=
      fun hc => hbr (Option.some.inj hc).symm
    have hcond2 : ¬ ((none : Option (List Pattern)) = some (step l c).2.1) := by simp
    rw [if_neg hcond, if_neg hcond2]
    simp only [hm, if_true]
    have hlen : (step l c).2.1.length < l.length := by
      have hle := (hS l c).length_le
      rcases lt_or_eq_of_le hle with h | h
      · exact h
      · exact absurd (List.Sublist.eq_of_length (hS l c) h) hbr
    have hstate := oomRun_some_state_eq hS hR ((step l c).2.1.length) (step l c).2.1
      le_rfl (step l c).2.2 (t + 1) 1 g₁ g₂ (by omega) (by omega)
    have ht := oomRun_times_ge step g₂ (step l c).2.1 (step l c).2.2
      (some (step l c).2.1) (0 + 1)
    rw [if_pos (by omega)]
    exact congrArg (fun s => s.2) hstate

/-- Unfolding of the single-usage-section branch of `docopt`. -/
theorem docopt_eq_after (doc usage : String) (argv : List String) (help : Bool)
    (version : Option String) (options_first : Bool)
    (hs : parse_section "usage" doc = [usage]) :
    docopt doc argv help version options_first =
      docoptAfterUsage usage doc argv help version options_first := by
  unfold docopt
  rw [hs]


/-- C1: for the grammar with one usage section declaring
`my_program tcp <host> <port> [--timeout=<seconds>]` and
`my_program (-h | --help | --version)` (so `--timeout` is registered as an
arity-1 option with default `None`), evaluating
`["tcp", "127.0.0.1", "80", "--timeout", "30"]` succeeds and returns exactly
the mapping `{tcp: true, <host>: "127.0.0.1", <port>: "80", --timeout: "30",
-h: false, --help: false, --version: false}`: every declared leaf name is
present, matched leaves carry the matched value, absent leaves their
default/false value. -/
theorem claim1_concrete_scenario :
    docopt
      "<usage>\nmy_program tcp <host> <port> [--timeout=<seconds>]\nmy_program (-h | --help | --version)\n</usage>"
      ["tcp", "127.0.0.1", "80", "--timeout", "30"] true none false =
    .ok [(some "tcp", .bool true), (some "<host>", .str "127.0.0.1"),
      (some "<port>", .str "80"), (some "--timeout", .str "30"),
      (some "-h", .bool false), (some "--help", .bool false),
      (some "--version", .bool false)] := by
  show docopt c1doc c1argv true none false = _
  rw [docopt_eq_after c1doc c1usage c1argv true none false (by decide)]
  simp only [docoptAfterUsage,
    show parse_pattern (formal_usage c1usage) (parse_defaults c1doc) =
      .ok (c1pat, c1opts) from by decide,
    show parse_argv c1argv c1opts false = .ok (c1leaves, c1opts) from by decide,
    show extras true none c1leaves = none from by decide,
    show (applyShortcuts c1pat c1doc).fix = c1patf from rfl,
    show c1patf.match' c1leaves [] = (true, [], c1coll) from by decide]
  decide

/-- C2 counterexample: the claim predicts that for `prefix = []`,
`rest = ["x"]` the parsed leaf list is `[Argument(None, "x")]` with no leaf for
the `--` token; the code produces `Argument(None, "--")` as well, because
`parse_argv` returns `[Argument(None, v) for v in tokens]` while `--` is still
the first element of `tokens`. -/
theorem claim2_counterexample :
    parse_argv ["--", "x"] [] false =
      .ok ([.argument none (.str "--"), .argument none (.str "x")], []) ∧
    parse_argv ["--", "x"] [] false ≠
      .ok ([.argument none (.str "x")], []) := by
  decide

/-- C5 counterexample: in the tree `Required(--speed, --speed)` where
`--speed` is an arity-1 option with string default `"10"`, the repeated leaf
becomes list-valued after normalization, but its value is `["10"]` (the
default split on whitespace), not the empty list the claim requires. -/
theorem claim5_counterexample :
    Pattern.fix
      (.required (.cons (.option ⟨none, some "--speed", 1, .str "10"⟩)
        (.cons (.option ⟨none, some "--speed", 1, .str "10"⟩) .nil))) =
      .required (.cons (.option ⟨none, some "--speed", 1, .list ["10"]⟩)
        (.cons (.option ⟨none, some "--speed", 1, .list ["10"]⟩) .nil)) ∧
    PyValue.list ["10"] ≠ PyValue.list [] := by
  decide

/-- C8: evaluation raises a grammar-definition error (`DocoptLanguageError`,
not the user-invocation `DocoptExit`) when the number of `<usage>...</usage>`
sections is zero or greater than one, and proceeds past this check (to the
rest of the pipeline) exactly when there is one such section. -/
theorem claim8_usage_sections (doc : String) (argv : List String) (help : Bool)
    (version : Option String) (options_first : Bool) :
    ((parse_section "usage" doc).length = 0 →
      docopt doc argv help version options_first =
        .error (.lang "'Usage:' (case-insensitive) section not found.")) ∧
    (1 < (parse_section "usage" doc).length →
      docopt doc argv help version options_first =
        .error (.lang "More than one 'Usage:' (case-insensitive) section.")) ∧
    (∀ usage, parse_section "usage" doc = [usage] →
      docopt doc argv help version options_first =
        docoptAfterUsage usage doc argv help version options_first) := by
  unfold docopt
  rcases h : parse_section "usage" doc with _ | ⟨u, _ | ⟨v, rest⟩⟩ <;> simp

/-- Witness for C8 at concrete inputs: a document with no usage tags triggers
the first branch, one with two sections the second, and the single-section
document proceeds. -/
theorem claim8_witness :
    ((parse_section "usage" "no tags").length = 0 ∧
      docopt "no tags" [] true none false =
        .error (.lang "'Usage:' (case-insensitive) section not found.")) ∧
    (1 < (parse_section "usage"
        "<usage>\na b\n</usage>\n<usage>\nc d\n</usage>").length ∧
      docopt "<usage>\na b\n</usage>\n<usage>\nc d\n</usage>" [] true none false =
        .error (.lang "More than one 'Usage:' (case-insensitive) section.")) ∧
    (parse_section "usage" "<usage>\nprog x\n</usage>" = ["\nprog x\n"] ∧
      docopt "<usage>\nprog x\n</usage>" [] true none false =
        docoptAfterUsage "\nprog x\n" "<usage>\nprog x\n</usage>" [] true none false) :=
  ⟨⟨by decide, (claim8_usage_sections "no tags" [] true none false).1 (by decide)⟩,
   ⟨by decide,
    (claim8_usage_sections "<usage>\na b\n</usage>\n<usage>\nc d\n</usage>" [] true
      none false).2.1 (by decide)⟩,
   ⟨by decide,
    (claim8_usage_sections "<usage>\nprog x\n</usage>" [] true none false).2.2
      "\nprog x\n" (by decide)⟩⟩

theorem parse_shortsLoop_undeclared (next : Option String) :
    ∀ (chars : List Char) (parsed opts : List OptionP),
      chars.Nodup →
      (∀ ch ∈ chars,
        opts.filter (fun o => o.short = some (String.mk ['-', ch])) = []) →
      parse_shortsLoop true next chars parsed opts =
        .ok (parsed ++ chars.map (fun ch =>
            OptionP.make (some (String.mk ['-', ch])) none 0 (.bool true)), false,
          opts ++ chars.map (fun ch =>
            OptionP.make (some (String.mk ['-', ch])) none 0 (.bool false))) := by
  intro chars
  induction chars with
  | nil => intro parsed opts _ _; simp [parse_shortsLoop]
  | cons ch rest ih =>
    intro parsed opts hnd hund
    have hsim : opts.filter (fun o => o.short = some (String.mk ['-', ch])) = [] :=
      hund ch (by simp)
    have hund2 : ∀ c ∈ rest,
        (opts ++ [OptionP.make (some (String.mk ['-', ch])) none 0 (.bool false)]).filter
          (fun o => o.short = some (String.mk ['-', c])) = [] := by
      intro c hc
      rw [List.filter_append, hund c (by simp [hc])]
      have hne : ch ≠ c := fun h => (List.nodup_cons.mp hnd).1 (h ▸ hc)
      have hso : (some (String.mk ['-', ch]) : Option String) ≠
          some (String.mk ['-', c]) := by
        intro heq
        have h2 : String.mk ['-', ch] = String.mk ['-', c] := Option.some.inj heq
        have h3 : ['-', ch] = ['-', c] := congrArg String.data h2
        exact hne (List.cons_eq_cons.mp (List.cons_eq_cons.mp h3).2).1
      simp [OptionP.make, hso]
    simp only [parse_shortsLoop, hsim]
    rw [ih _ _ (List.nodup_cons.mp hnd).2 hund2]
    simp [OptionP.make]

/-- C10: a token that is a run of short flags none of which is a declared
option parses without error: each undeclared short is registered into the
option list with arity 0 and default value `False`, the parsed leaves are the
corresponding value-`True` `Option`s in run order, and `parse_argv` on an argv
holding just that token succeeds with those leaves. -/
theorem claim10_unknown_shorts (a : Char) (as : List Char) (opts : List OptionP)
    (hnd : (a :: as).Nodup) (hdash : '-' ∉ (a :: as))
    (hund : ∀ ch ∈ a :: as,
      opts.filter (fun o => o.short = some (String.mk ['-', ch])) = []) :
    parse_shorts true (String.mk ('-' :: a :: as)) none opts =
      .ok ((a :: as).map (fun ch =>
          OptionP.make (some (String.mk ['-', ch])) none 0 (.bool true)), false,
        opts ++ (a :: as).map (fun ch =>
          OptionP.make (some (String.mk ['-', ch])) none 0 (.bool false))) ∧
    parse_argv [String.mk ('-' :: a :: as)] opts false =
      .ok ((a :: as).map (fun ch =>
          Pattern.option (OptionP.make (some (String.mk ['-', ch])) none 0
            (.bool true))),
        opts ++ (a :: as).map (fun ch =>
          OptionP.make (some (String.mk ['-', ch])) none 0 (.bool false))) := by
  have ha : a ≠ '-' := fun h => hdash (by simp [h])
  have hdrop : (String.mk ('-' :: a :: as)).toList.dropWhile
      (fun x => decide (x = '-')) = a :: as := by
    show ('-' :: a :: as).dropWhile (fun x => decide (x = '-')) = a :: as
    simp [List.dropWhile, ha]
  have hshorts : parse_shorts true (String.mk ('-' :: a :: as)) none opts =
      .ok ((a :: as).map (fun ch =>
          OptionP.make (some (String.mk ['-', ch])) none 0 (.bool true)), false,
        opts ++ (a :: as).map (fun ch =>
          OptionP.make (some (String.mk ['-', ch])) none 0 (.bool false))) := by
    show parse_shortsLoop true none
        ((String.mk ('-' :: a :: as)).toList.dropWhile (fun x => decide (x = '-')))
        [] opts = _
    rw [hdrop, parse_shortsLoop_undeclared none (a :: as) [] opts hnd hund]
    simp
  refine ⟨hshorts, ?_⟩
  have h1 : ¬ (String.mk ('-' :: a :: as) = "--") := by
    intro h
    have hdat : '-' :: a :: as = ['-', '-'] := congrArg String.data h
    exact ha (List.cons_eq_cons.mp (List.cons_eq_cons.mp hdat).2).1
  have h2 : ¬ (pyStartsWith (String.mk ('-' :: a :: as)) "--" = true) := by
    show ¬ (("--".toList).isPrefixOf ('-' :: a :: as) = true)
    have ha2 : ¬ ('-' = a) := fun h => ha h.symm
    simp [List.isPrefixOf, ha2]
  have h3 : pyStartsWith (String.mk ('-' :: a :: as)) "-" = true := rfl
  have h4 : String.mk ('-' :: a :: as) ≠ "-" := by
    intro h
    have hdat : '-' :: a :: as = ['-'] := congrArg String.data h
    simp at hdat
  show parse_argvF 2 [String.mk ('-' :: a :: as)] opts false = _
  simp only [parse_argvF, List.head?_nil, if_neg h1, if_neg h2,
    if_pos (And.intro h3 h4)]
  rw [hshorts]
  simp [List.map_map, Function.comp]

/-- Witness for C10 at a concrete input: the undeclared run `-xy` parses into
two value-`True` short options and registers both with arity 0. -/
theorem claim10_witness :
    parse_argv [String.mk ['-', 'x', 'y']] [] false =
      .ok ([.option (OptionP.make (some "-x") none 0 (.bool true)),
            .option (OptionP.make (some "-y") none 0 (.bool true))],
           [OptionP.make (some "-x") none 0 (.bool false),
            OptionP.make (some "-y") none 0 (.bool false)]) := by
  have h := (claim10_unknown_shorts 'x' ['y'] [] (by decide) (by decide)
    (fun ch hch => rfl)).2
  rw [h]
  decide

/-- A `--` next token is equivalent to no next token for `parse_long`: the
only inspection of `next` treats `some "--"` and `none` identically (both
raise `requires argument`). -/
theorem parse_long_ddash_next (m : Bool) (t : String) (opts : List OptionP) :
    parse_long m t (some "--") opts = parse_long m t none opts := rfl

/-- A `--` next token is equivalent to no next token for the `parse_shorts`
loop. -/
theorem parse_shortsLoop_ddash_next (m : Bool) : ∀ (chars : List Char) (parsed opts : List OptionP),
    parse_shortsLoop m (some "--") chars parsed opts =
      parse_shortsLoop m none chars parsed opts := by
  intro chars
  induction chars with
  | nil => intro parsed opts; rfl
  | cons ch rest ih =>
    intro parsed opts
    simp only [parse_shortsLoop]
    rcases h : opts.filter fun o => o.short = some (String.mk ['-', ch])
      with _ | ⟨s, _ | ⟨s2, tl⟩⟩
    · rw [h]
      exact ih _ _
    · rw [h]
      by_cases hc : (OptionP.make (some (String.mk ['-', ch])) s.long s.argcount
          s.value).argcount ≠ 0
      · simp only [if_pos hc]
        cases rest with
        | nil => simp
        | cons c cs => rfl
      · simp only [if_neg hc]
        exact ih _ _
    · rw [h]

/-- A `--` next token is equivalent to no next token for `parse_shorts`. -/
theorem parse_shorts_ddash_next (m : Bool) (t : String) (opts : List OptionP) :
    parse_shorts m t (some "--") opts = parse_shorts m t none opts :=
  parse_shortsLoop_ddash_next m _ [] opts

/-- With no next token, a successful `parse_long` never consumes the next
token. -/
theorem parse_long_none_not_consumed (m : Bool) (t : String) (opts : List OptionP) (o : OptionP) (c : Bool)
    (opts' : List OptionP) (h : parse_long m t none opts = .ok (o, c, opts')) :
    c = false := by
  simp only [parse_long] at h
  repeat' split at h
  all_goals simp at h
  all_goals tauto

/-- With no next token, a successful `parse_shorts` loop never consumes the
next token. -/
theorem parse_shortsLoop_none_not_consumed (m : Bool) : ∀ (chars : List Char) (parsed opts : List OptionP)
    (os : List OptionP) (c : Bool) (opts' : List OptionP),
    parse_shortsLoop m none chars parsed opts = .ok (os, c, opts') → c = false := by
  intro chars
  induction chars with
  | nil =>
    intro parsed opts os c opts' h
    simp only [parse_shortsLoop] at h
    simp at h
    tauto
  | cons ch rest ih =>
    intro parsed opts os c opts' h
    simp only [parse_shortsLoop] at h
    split at h
    · simp at h
    · exact ih _ _ _ _ _ h
    · split at h
      · split at h
        · simp at h
        · simp at h; tauto
      · exact ih _ _ _ _ _ h

/-- With no next token, a successful `parse_shorts` never consumes the next
token. -/
theorem parse_shorts_none_not_consumed (m : Bool) (t : String) (opts : List OptionP) (os : List OptionP)
    (c : Bool) (opts' : List OptionP)
    (h : parse_shorts m t none opts = .ok (os, c, opts')) : c = false :=
  parse_shortsLoop_none_not_consumed m _ [] opts os c opts' h

/-- Splitting `parse_argv` at the first `--` token: the tokens before it are
parsed normally (with enough fuel on both sides), and the `--` together with
every token after it becomes a positional `Argument`. -/
theorem parse_argvF_ddash :
    ∀ (n : Nat) (pfx : List String), pfx.length ≤ n →
      ∀ (rest : List String) (opts : List OptionP) (of : Bool) (f₁ f₂ : Nat),
        pfx.length + rest.length + 2 ≤ f₁ → pfx.length + 1 ≤ f₂ → "--" ∉ pfx →
        parse_argvF f₁ (pfx ++ "--" :: rest) opts of =
          (match parse_argvF f₂ pfx opts of with
           | .error e => .error e
           | .ok (ps, opts') =>
             .ok (ps ++ ("--" :: rest).map fun v => .argument none (.str v), opts')) := by
  intro n
  induction n with
  | zero =>
    intro pfx hn rest opts of f₁ f₂ h₁ h₂ hmem
    have hpfx : pfx = [] := List.length_eq_zero.mp (Nat.le_zero.mp hn)
    subst hpfx
    obtain ⟨g₁, rfl⟩ : ∃ g₁, f₁ = g₁ + 1 := ⟨f₁ - 1, by omega⟩
    obtain ⟨g₂, rfl⟩ : ∃ g₂, f₂ = g₂ + 1 := ⟨f₂ - 1, by omega⟩
    simp [parse_argvF]
  | succ n ih =>
    intro pfx hn rest opts of f₁ f₂ h₁ h₂ hmem
    obtain ⟨g₁, rfl⟩ : ∃ g₁, f₁ = g₁ + 1 := ⟨f₁ - 1, by omega⟩
    obtain ⟨g₂, rfl⟩ : ∃ g₂, f₂ = g₂ + 1 := ⟨f₂ - 1, by omega⟩
    rcases pfx with _ | ⟨t, ptail⟩
    · simp [parse_argvF]
    · have ht : t ≠ "--" := fun h => hmem (by simp [h])
      have hmem2 : "--" ∉ ptail := fun h => hmem (by simp [h])
      have hn2 : ptail.length ≤ n := by simp at hn; omega
      simp only [List.cons_append, parse_argvF]
      rw [if_neg ht, if_neg ht]
      by_cases hlong : pyStartsWith t "--" = true
      · rw [if_pos hlong, if_pos hlong]
        rcases ptail with _ | ⟨p, ps⟩
        · simp only [List.nil_append, List.head?_cons, List.head?_nil, parse_long_ddash_next]
          rcases hpl : parse_long true t none opts with e | ⟨o, consumed, opts₁⟩
          · rfl
          · have hc := parse_long_none_not_consumed true t opts o consumed opts₁ hpl
            subst hc
            obtain ⟨g₃, rfl⟩ : ∃ g₃, g₁ = g₃ + 1 := ⟨g₁ - 1, by simp at h₁; omega⟩
            simp [parse_argvF]
        · simp only [List.cons_append, List.head?_cons]
          rcases hpl : parse_long true t (some p) opts with e | ⟨o, consumed, opts₁⟩
          · rfl
          · cases consumed
            · simp only []
              rw [← List.cons_append]
              rw [ih (p :: ps) (by simp at hn ⊢; omega) rest opts₁ of g₁ g₂
                (by simp at h₁ ⊢; omega) (by simp at h₂ ⊢; omega) hmem2]
              rcases parse_argvF g₂ (p :: ps) opts₁ of with e | ⟨qs, opts₂⟩ <;> simp
            · simp only []
              rw [ih ps (by simp at hn ⊢; omega) rest opts₁ of g₁ g₂
                (by simp at h₁ ⊢; omega) (by simp at h₂ ⊢; omega)
                (fun hx => hmem2 (by simp [hx]))]
              rcases parse_argvF g₂ ps opts₁ of with e | ⟨qs, opts₂⟩ <;> simp
      · rw [if_neg hlong, if_neg hlong]
        by_cases hshort : pyStartsWith t "-" = true ∧ t ≠ "-"
        · rw [if_pos hshort, if_pos hshort]
          rcases ptail with _ | ⟨p, ps⟩
          · simp only [List.nil_append, List.head?_cons, List.head?_nil, parse_shorts_ddash_next]
            rcases hps : parse_shorts true t none opts with e | ⟨os, consumed, opts₁⟩
            · rfl
            · have hc := parse_shorts_none_not_consumed true t opts os consumed opts₁ hps
              subst hc
              obtain ⟨g₃, rfl⟩ : ∃ g₃, g₁ = g₃ + 1 := ⟨g₁ - 1, by simp at h₁; omega⟩
              simp [parse_argvF]
          · simp only [List.cons_append, List.head?_cons]
            rcases hps : parse_shorts true t (some p) opts with e | ⟨os, consumed, opts₁⟩
            · rfl
            · cases consumed
              · simp only []
                rw [← List.cons_append]
                rw [ih (p :: ps) (by simp at hn ⊢; omega) rest opts₁ of g₁ g₂
                  (by simp at h₁ ⊢; omega) (by simp at h₂ ⊢; omega) hmem2]
                rcases parse_argvF g₂ (p :: ps) opts₁ of with e | ⟨qs, opts₂⟩ <;> simp
              · simp only []
                rw [ih ps (by simp at hn ⊢; omega) rest opts₁ of g₁ g₂
                  (by simp at h₁ ⊢; omega) (by simp at h₂ ⊢; omega)
                  (fun hx => hmem2 (by simp [hx]))]
                rcases parse_argvF g₂ ps opts₁ of with e | ⟨qs, opts₂⟩ <;> simp
        · rw [if_neg hshort, if_neg hshort]
          by_cases hof : of = true
          · rw [if_pos hof, if_pos hof]
            simp
          · rw [if_neg hof, if_neg hof]
            rw [ih ptail hn2 rest opts of g₁ g₂
              (by simp at h₁ ⊢; omega) (by simp at h₂ ⊢; omega) hmem2]
            rcases parse_argvF g₂ ptail opts of with e | ⟨qs, opts₂⟩ <;> simp

/-- C2 (corrected): when `--` is encountered, option scanning stops and every
remaining token becomes a positional `Argument(None, token)` — but the `--`
token itself is NOT dropped: it too becomes `Argument(None, "--")`.  For every
argv of the form `prefix ++ "--" :: rest` with no earlier `--`, the parse is
the parse of the prefix followed by one positional per token of
`"--" :: rest`. -/
theorem claim2_double_dash (pfx rest : List String) (opts : List OptionP)
    (of : Bool) (h : "--" ∉ pfx) :
    parse_argv (pfx ++ "--" :: rest) opts of =
      (match parse_argv pfx opts of with
       | .error e => .error e
       | .ok (ps, opts') =>
         .ok (ps ++ ("--" :: rest).map fun v => .argument none (.str v), opts')) := by
  show parse_argvF ((pfx ++ "--" :: rest).length + 1) (pfx ++ "--" :: rest) opts of = _
  rw [parse_argvF_ddash pfx.length pfx le_rfl rest opts of
    ((pfx ++ "--" :: rest).length + 1) (pfx.length + 1)
    (by simp [List.length_append]; omega) le_rfl h]
  rfl

/-- Witness for C2 at a concrete input: `["x", "--", "y"]` keeps the `--` as a
positional argument. -/
theorem claim2_double_dash_witness :
    parse_argv (["x"] ++ "--" :: ["y"]) [] false =
      .ok ([.argument none (.str "x"), .argument none (.str "--"),
            .argument none (.str "y")], []) := by
  rw [claim2_double_dash ["x"] ["y"] [] false (by decide)]
  decide

/-- A leaf's `flat []` is the singleton of itself. -/
theorem flat_of_leaf : ∀ q : Pattern, q.isBranch = false → q.flat [] = [q] := by
  intro q h
  cases q <;> simp [Pattern.flat, Pattern.isBranch] at h ⊢

/-- The accumulator seeding preserves the node kind class. -/
theorem seedLeaf_isBranch (x : Pattern) : (seedLeaf x).isBranch = x.isBranch := by
  cases x <;> first | rfl | (simp only [seedLeaf]; split <;> rfl)

/-- For a leaf-preserving leaf update, `flat []` commutes with `mapLeaves`:
the leaves of the updated tree are the updated leaves, in order. -/
theorem flat_mapLeaves (f : Pattern → Pattern)
    (hf : ∀ x, x.isBranch = false → (f x).isBranch = false) :
    ∀ p : Pattern, (Pattern.mapLeaves f p).flat [] = (p.flat []).map f := by
  suffices H : ∀ (n : Nat) (p : Pattern), p.psize ≤ n →
      (Pattern.mapLeaves f p).flat [] = (p.flat []).map f from
    fun p => H p.psize p le_rfl
  intro n
  induction n with
  | zero => intro p hp; have := p.psize_pos; omega
  | succ n ih =>
    have hlist : ∀ cs : Patterns, (∀ q ∈ cs.toList, q.psize ≤ n) →
        Patterns.flatList [] (Patterns.mapLeavesList f cs) =
          (Patterns.flatList [] cs).map f := by
      intro cs
      induction cs with
      | hnil => intro _; rfl
      | hcons q qs ihq =>
        intro hmem
        simp only [Patterns.mapLeavesList, Patterns.flatList, List.map_append]
        rw [ih q (hmem q (by simp [Patterns.toList])),
          ihq (fun r hr => hmem r (by simp [Patterns.toList, hr]))]
    intro p hp
    cases p with
    | argument nm v =>
      rw [show Pattern.mapLeaves f (.argument nm v) = f (.argument nm v) from rfl,
        flat_of_leaf _ (hf _ (by rfl))]
      simp [Pattern.flat]
    | command nm v =>
      rw [show Pattern.mapLeaves f (.command nm v) = f (.command nm v) from rfl,
        flat_of_leaf _ (hf _ (by rfl))]
      simp [Pattern.flat]
    | option o =>
      rw [show Pattern.mapLeaves f (.option o) = f (.option o) from rfl,
        flat_of_leaf _ (hf _ (by rfl))]
      simp [Pattern.flat]
    | required cs =>
      simp only [Pattern.mapLeaves, Pattern.flat]
      rw [hlist cs (fun q hq => by
        have h1 := Patterns.psize_le_of_mem hq
        have h2 : Pattern.psize (.required cs) = 1 + Patterns.psizeList cs := rfl
        omega)]
      simp
    | optional cs =>
      simp only [Pattern.mapLeaves, Pattern.flat]
      rw [hlist cs (fun q hq => by
        have h1 := Patterns.psize_le_of_mem hq
        have h2 : Pattern.psize (.optional cs) = 1 + Patterns.psizeList cs := rfl
        omega)]
      simp
    | optionsShortcut cs =>
      simp only [Pattern.mapLeaves, Pattern.flat]
      rw [hlist cs (fun q hq => by
        have h1 := Patterns.psize_le_of_mem hq
        have h2 : Pattern.psize (.optionsShortcut cs) = 1 + Patterns.psizeList cs := rfl
        omega)]
      simp
    | oneOrMore cs =>
      simp only [Pattern.mapLeaves, Pattern.flat]
      rw [hlist cs (fun q hq => by
        have h1 := Patterns.psize_le_of_mem hq
        have h2 : Pattern.psize (.oneOrMore cs) = 1 + Patterns.psizeList cs := rfl
        omega)]
      simp
    | either cs =>
      simp only [Pattern.mapLeaves, Pattern.flat]
      rw [hlist cs (fun q hq => by
        have h1 := Patterns.psize_le_of_mem hq
        have h2 : Pattern.psize (.either cs) = 1 + Patterns.psizeList cs := rfl
        omega)]
      simp

/-- Every member of `flat []` is a leaf. -/
theorem flat_members_leaf : ∀ p : Pattern, ∀ x ∈ p.flat [], x.isBranch = false := by
  suffices H : ∀ (n : Nat) (p : Pattern), p.psize ≤ n → ∀ x ∈ p.flat [],
      x.isBranch = false from fun p => H p.psize p le_rfl
  intro n
  induction n with
  | zero => intro p hp; have := p.psize_pos; omega
  | succ n ih =>
    have hlist : ∀ cs : Patterns, (∀ q ∈ cs.toList, q.psize ≤ n) →
        ∀ x ∈ Patterns.flatList [] cs, x.isBranch = false := by
      intro cs
      induction cs with
      | hnil => intro _ x hx; simp [Patterns.flatList] at hx
      | hcons q qs ihq =>
        intro hmem x hx
        simp only [Patterns.flatList, List.mem_append] at hx
        rcases hx with hx | hx
        · exact ih q (hmem q (by simp [Patterns.toList])) x hx
        · exact ihq (fun r hr => hmem r (by simp [Patterns.toList, hr])) x hx
    intro p hp x hx
    cases p with
    | argument nm v => simp [Pattern.flat] at hx; subst hx; rfl
    | command nm v => simp [Pattern.flat] at hx; subst hx; rfl
    | option o => simp [Pattern.flat] at hx; subst hx; rfl
    | required cs =>
      simp only [Pattern.flat] at hx
      rw [if_neg (by simp)] at hx
      exact hlist cs (fun q hq => by
        have h1 := Patterns.psize_le_of_mem hq
        have h2 : Pattern.psize (.required cs) = 1 + Patterns.psizeList cs := rfl
        omega) x hx
    | optional cs =>
      simp only [Pattern.flat] at hx
      rw [if_neg (by simp)] at hx
      exact hlist cs (fun q hq => by
        have h1 := Patterns.psize_le_of_mem hq
        have h2 : Pattern.psize (.optional cs) = 1 + Patterns.psizeList cs := rfl
        omega) x hx
    | optionsShortcut cs =>
      simp only [Pattern.flat] at hx
      rw [if_neg (by simp)] at hx
      exact hlist cs (fun q hq => by
        have h1 := Patterns.psize_le_of_mem hq
        have h2 : Pattern.psize (.optionsShortcut cs) = 1 + Patterns.psizeList cs := rfl
        omega) x hx
    | oneOrMore cs =>
      simp only [Pattern.flat] at hx
      rw [if_neg (by simp)] at hx
      exact hlist cs (fun q hq => by
        have h1 := Patterns.psize_le_of_mem hq
        have h2 : Pattern.psize (.oneOrMore cs) = 1 + Patterns.psizeList cs := rfl
        omega) x hx
    | either cs =>
      simp only [Pattern.flat] at hx
      rw [if_neg (by simp)] at hx
      exact hlist cs (fun q hq => by
        have h1 := Patterns.psize_le_of_mem hq
        have h2 : Pattern.psize (.either cs) = 1 + Patterns.psizeList cs := rfl
        omega) x hx

/-- C5 (corrected): a leaf is accumulator-typed after normalization exactly
when it occurs more than once in some conjunctive alternative of the
disjunctive-normal-form expansion; a repeated `Argument` or arity-1 `Option`
is seeded to the empty list only when its prior value is `None` — a string
default is seeded to the default split on whitespace, not to `[]` — and a
repeated `Command` or arity-0 `Option` is seeded to the integer `0`.  The
shape hypothesis states the value forms the pipeline actually produces
(no int-, list- or bool-typed defaults where excluded). -/
theorem claim5_accumulator_typing (p : Pattern)
    (hshape : ∀ x ∈ p.flat [],
      (x.kind = .argument → PyValue.typeIsInt x.value = false ∧ PyValue.typeIsList x.value = false ∧
        ∀ b, x.value ≠ .bool b) ∧
      (x.kind = .command → PyValue.typeIsInt x.value = false ∧ PyValue.typeIsList x.value = false) ∧
      (x.kind = .option → PyValue.typeIsInt x.value = false ∧ PyValue.typeIsList x.value = false ∧
        (x.argcountOf ≠ 0 → ∀ b, x.value ≠ .bool b))) :
    (Pattern.fix p).flat [] =
      (p.flat []).map (fun x =>
        if repeatedIn (dnfCases p) x = true then seedLeaf x else x) ∧
    (∀ x ∈ p.flat [],
      ((PyValue.typeIsInt (if repeatedIn (dnfCases p) x = true then seedLeaf x
            else x).value = true ∨
        PyValue.typeIsList (if repeatedIn (dnfCases p) x = true then seedLeaf x
            else x).value = true) ↔
        repeatedIn (dnfCases p) x = true)) ∧
    (∀ x ∈ p.flat [], repeatedIn (dnfCases p) x = true →
      ((x.kind = .argument ∨ (x.kind = .option ∧ x.argcountOf ≠ 0)) →
        (x.value = .none → (seedLeaf x).value = .list []) ∧
        (∀ s, x.value = .str s → (seedLeaf x).value = .list (pySplit s))) ∧
      ((x.kind = .command ∨ (x.kind = .option ∧ x.argcountOf = 0)) →
        (seedLeaf x).value = .int 0)) := by
  have hupd : ∀ x : Pattern, x.isBranch = false →
      ((fun x => if repeatedIn (dnfCases p) x = true then seedLeaf x else x) x).isBranch
        = false := by
    intro x hx
    by_cases hr : repeatedIn (dnfCases p) x = true
    · simp only [hr, if_true, seedLeaf_isBranch]; exact hx
    · simp only [hr, if_false]; exact hx
  refine ⟨?_, ?_, ?_⟩
  · show (Pattern.mapLeaves _ p).flat [] = _
    exact flat_mapLeaves _ hupd p
  · intro x hx
    obtain ⟨ha, hc, ho⟩ := hshape x hx
    have hleaf := flat_members_leaf p x hx
    by_cases hr : repeatedIn (dnfCases p) x = true
    · simp only [hr, if_true, iff_true]
      cases x with
      | argument nm v =>
        obtain ⟨h1, h2, h3⟩ := ha rfl
        cases v with
        | none => simp [seedLeaf, seedArgValue, Pattern.value, PyValue.typeIsList]
        | str s => simp [seedLeaf, seedArgValue, Pattern.value, PyValue.typeIsList]
        | bool b => exact absurd rfl (h3 b)
        | int k => simp [PyValue.typeIsInt, Pattern.value] at h1
        | list xs => simp [PyValue.typeIsList, Pattern.value] at h2
      | command nm v => simp [seedLeaf, Pattern.value, PyValue.typeIsInt]
      | option o =>
        obtain ⟨h1, h2, h3⟩ := ho rfl
        by_cases hac : o.argcount = 0
        · simp [seedLeaf, hac, Pattern.value, PyValue.typeIsInt]
        · have h4 := h3 (by simpa [Pattern.argcountOf] using hac)
          rcases hv : o.value with _ | b | s | k | xs
          · simp [seedLeaf, hac, seedArgValue, hv, Pattern.value, PyValue.typeIsList]
          · exact absurd hv (h4 b)
          · simp [seedLeaf, hac, seedArgValue, hv, Pattern.value, PyValue.typeIsList]
          · rw [show Pattern.value (.option o) = o.value from rfl, hv] at h1
            simp [PyValue.typeIsInt] at h1
          · rw [show Pattern.value (.option o) = o.value from rfl, hv] at h2
            simp [PyValue.typeIsList] at h2
      | required cs => simp [Pattern.isBranch] at hleaf
      | optional cs => simp [Pattern.isBranch] at hleaf
      | optionsShortcut cs => simp [Pattern.isBranch] at hleaf
      | oneOrMore cs => simp [Pattern.isBranch] at hleaf
      | either cs => simp [Pattern.isBranch] at hleaf
    · rw [if_neg hr]
      refine ⟨fun hcon => ?_, fun h => absurd h hr⟩
      exfalso
      cases x with
      | argument nm v =>
        obtain ⟨h1, h2, _⟩ := ha rfl
        rcases hcon with h | h
        · exact absurd (h1.symm.trans h) (by decide)
        · exact absurd (h2.symm.trans h) (by decide)
      | command nm v =>
        obtain ⟨h1, h2⟩ := hc rfl
        rcases hcon with h | h
        · exact absurd (h1.symm.trans h) (by decide)
        · exact absurd (h2.symm.trans h) (by decide)
      | option o =>
        obtain ⟨h1, h2, _⟩ := ho rfl
        rcases hcon with h | h
        · exact absurd (h1.symm.trans h) (by decide)
        · exact absurd (h2.symm.trans h) (by decide)
      | required cs => simp [Pattern.isBranch] at hleaf
      | optional cs => simp [Pattern.isBranch] at hleaf
      | optionsShortcut cs => simp [Pattern.isBranch] at hleaf
      | oneOrMore cs => simp [Pattern.isBranch] at hleaf
      | either cs => simp [Pattern.isBranch] at hleaf
  · intro x hx hr
    have hleaf := flat_members_leaf p x hx
    constructor
    · intro hk
      cases x with
      | argument nm v =>
        refine ⟨?_, ?_⟩
        · intro hv
          rw [show Pattern.value (.argument nm v) = v from rfl] at hv
          subst hv
          rfl
        · intro s hv
          rw [show Pattern.value (.argument nm v) = v from rfl] at hv
          subst hv
          rfl
      | command nm v => simp [Pattern.kind, Pattern.argcountOf] at hk
      | option o =>
        have hac : o.argcount ≠ 0 := by
          rcases hk with hk | hk
          · simp [Pattern.kind] at hk
          · simpa [Pattern.argcountOf] using hk.2
        refine ⟨?_, ?_⟩
        · intro hv
          rw [show Pattern.value (.option o) = o.value from rfl] at hv
          simp [seedLeaf, hac, seedArgValue, hv, Pattern.value]
        · intro s hv
          rw [show Pattern.value (.option o) = o.value from rfl] at hv
          simp [seedLeaf, hac, seedArgValue, hv, Pattern.value]
      | required cs => simp [Pattern.isBranch] at hleaf
      | optional cs => simp [Pattern.isBranch] at hleaf
      | optionsShortcut cs => simp [Pattern.isBranch] at hleaf
      | oneOrMore cs => simp [Pattern.isBranch] at hleaf
      | either cs => simp [Pattern.isBranch] at hleaf
    · intro hk
      cases x with
      | argument nm v => simp [Pattern.kind, Pattern.argcountOf] at hk
      | command nm v => rfl
      | option o =>
        have hac : o.argcount = 0 := by
          rcases hk with hk | hk
          · simp [Pattern.kind] at hk
          · simpa [Pattern.argcountOf] using hk.2
        simp [seedLeaf, hac, Pattern.value]
      | required cs => simp [Pattern.isBranch] at hleaf
      | optional cs => simp [Pattern.isBranch] at hleaf
      | optionsShortcut cs => simp [Pattern.isBranch] at hleaf
      | oneOrMore cs => simp [Pattern.isBranch] at hleaf
      | either cs => simp [Pattern.isBranch] at hleaf

/-- Witness for C5 at a concrete input: the tree `Required(<x>, <x>)` with
`None`-valued arguments normalizes both occurrences to empty-list values. -/
theorem claim5_accumulator_witness :
    (Pattern.fix (Pattern.required (Patterns.cons
        (Pattern.argument (some "<x>") PyValue.none)
        (Patterns.cons (Pattern.argument (some "<x>") PyValue.none)
          Patterns.nil)))).flat [] =
      [Pattern.argument (some "<x>") (PyValue.list []),
       Pattern.argument (some "<x>") (PyValue.list [])] := by
  rw [(claim5_accumulator_typing (Pattern.required (Patterns.cons
      (Pattern.argument (some "<x>") PyValue.none)
      (Patterns.cons (Pattern.argument (some "<x>") PyValue.none)
        Patterns.nil))) (by decide)).1]
  decide


/-- Value seeding is idempotent. -/
theorem seedArgValue_idem (v : PyValue) : seedArgValue (seedArgValue v) = seedArgValue v := by
  cases v <;> rfl

/-- Leaf seeding is idempotent. -/
theorem seedLeaf_idem (x : Pattern) : seedLeaf (seedLeaf x) = seedLeaf x := by
  cases x with
  | argument n v => simp [seedLeaf, seedArgValue_idem]
  | command n v => rfl
  | option o => by_cases hac : o.argcount ≠ 0 <;> simp [seedLeaf, hac, seedArgValue_idem]
  | required cs => rfl
  | optional cs => rfl
  | optionsShortcut cs => rfl
  | oneOrMore cs => rfl
  | either cs => rfl

/-- On a leaf, `mapLeaves` is just the function. -/
theorem mapLeaves_of_leaf (f : Pattern → Pattern) (x : Pattern)
    (h : x.isBranch = false) : Pattern.mapLeaves f x = f x := by
  cases x <;> first | rfl | simp [Pattern.isBranch] at h

/-- A leaf-preserving leaf update preserves the branch/leaf classification of
every node. -/
theorem isBranch_mapLeaves (f : Pattern → Pattern)
    (hf : ∀ x, x.isBranch = false → (f x).isBranch = false) (x : Pattern) :
    (Pattern.mapLeaves f x).isBranch = x.isBranch := by
  cases x with
  | argument n v => rw [mapLeaves_of_leaf f _ (by rfl)]; exact hf _ (by rfl)
  | command n v => rw [mapLeaves_of_leaf f _ (by rfl)]; exact hf _ (by rfl)
  | option o => rw [mapLeaves_of_leaf f _ (by rfl)]; exact hf _ (by rfl)
  | required cs => rfl
  | optional cs => rfl
  | optionsShortcut cs => rfl
  | oneOrMore cs => rfl
  | either cs => rfl

/-- Child-list conversion commutes with `mapLeaves`. -/
theorem toList_mapLeavesList (f : Pattern → Pattern) :
    ∀ cs : Patterns, (Patterns.mapLeavesList f cs).toList =
      cs.toList.map (Pattern.mapLeaves f) := by
  intro cs
  induction cs with
  | hnil => rfl
  | hcons q qs ih => simp [Patterns.mapLeavesList, Patterns.toList, ih]

/-- Every leaf has potential `2`. -/
theorem nu_of_leaf (x : Pattern) (h : x.isBranch = false) : x.nu = 2 := by
  cases x <;> first | rfl | simp [Pattern.isBranch] at h

/-- The `transform` termination potential is invariant under leaf-preserving
leaf updates. -/
theorem nu_mapLeaves (f : Pattern → Pattern)
    (hf : ∀ x, x.isBranch = false → (f x).isBranch = false) :
    ∀ p : Pattern, (Pattern.mapLeaves f p).nu = p.nu := by
  suffices H : ∀ (n : Nat) (p : Pattern), p.psize ≤ n →
      (Pattern.mapLeaves f p).nu = p.nu from fun p => H p.psize p le_rfl
  intro n
  induction n with
  | zero => intro p hp; have := p.psize_pos; omega
  | succ n ih =>
    have hlist : ∀ cs : Patterns, (∀ q ∈ cs.toList, q.psize ≤ n) →
        Patterns.nuList (Patterns.mapLeavesList f cs) = Patterns.nuList cs := by
      intro cs
      induction cs with
      | hnil => intro _; rfl
      | hcons q qs ihq =>
        intro hmem
        simp only [Patterns.mapLeavesList, Patterns.nuList]
        rw [ih q (hmem q (by simp [Patterns.toList])),
          ihq (fun r hr => hmem r (by simp [Patterns.toList, hr]))]
    intro p hp
    cases p with
    | argument nm v =>
      rw [mapLeaves_of_leaf f _ (by rfl), nu_of_leaf _ (hf _ (by rfl))]; rfl
    | command nm v =>
      rw [mapLeaves_of_leaf f _ (by rfl), nu_of_leaf _ (hf _ (by rfl))]; rfl
    | option o =>
      rw [mapLeaves_of_leaf f _ (by rfl), nu_of_leaf _ (hf _ (by rfl))]; rfl
    | required cs =>
      simp only [Pattern.mapLeaves, Pattern.nu]
      rw [hlist cs (fun q hq => by
        have h1 := Patterns.psize_le_of_mem hq
        have h2 : Pattern.psize (.required cs) = 1 + Patterns.psizeList cs := rfl
        omega)]
    | optional cs =>
      simp only [Pattern.mapLeaves, Pattern.nu]
      rw [hlist cs (fun q hq => by
        have h1 := Patterns.psize_le_of_mem hq
        have h2 : Pattern.psize (.optional cs) = 1 + Patterns.psizeList cs := rfl
        omega)]
    | optionsShortcut cs =>
      simp only [Pattern.mapLeaves, Pattern.nu]
      rw [hlist cs (fun q hq => by
        have h1 := Patterns.psize_le_of_mem hq
        have h2 : Pattern.psize (.optionsShortcut cs) = 1 + Patterns.psizeList cs := rfl
        omega)]
    | oneOrMore cs =>
      simp only [Pattern.mapLeaves, Pattern.nu]
      rw [hlist cs (fun q hq => by
        have h1 := Patterns.psize_le_of_mem hq
        have h2 : Pattern.psize (.oneOrMore cs) = 1 + Patterns.psizeList cs := rfl
        omega)]
    | either cs =>
      simp only [Pattern.mapLeaves, Pattern.nu]
      rw [hlist cs (fun q hq => by
        have h1 := Patterns.psize_le_of_mem hq
        have h2 : Pattern.psize (.either cs) = 1 + Patterns.psizeList cs := rfl
        omega)]

/-- When no branch is found, every group member is a leaf. -/
theorem split_none_leaves :
    ∀ l : List Pattern, splitAtFirstBranch l = none → ∀ z ∈ l, z.isBranch = false := by
  intro l
  induction l with
  | nil => intro _ z hz; simp at hz
  | cons p rest ih =>
    intro h z hz
    simp only [splitAtFirstBranch] at h
    by_cases hb : p.isBranch = true
    · rw [if_pos hb] at h; simp at h
    · rw [if_neg hb] at h
      rcases List.mem_cons.mp hz with hz | hz
      · subst hz; simpa using hb
      · rcases hs : splitAtFirstBranch rest with _ | ⟨⟨pre, c, post⟩⟩
        · exact ih hs z hz
        · rw [hs] at h; simp at h

/-- The element found by `splitAtFirstBranch` is a branch. -/
theorem split_branch :
    ∀ l : List Pattern, ∀ pre c post, splitAtFirstBranch l = some (pre, c, post) →
      c.isBranch = true := by
  intro l
  induction l with
  | nil => intro pre c post h; simp [splitAtFirstBranch] at h
  | cons p rest ih =>
    intro pre c post h
    simp only [splitAtFirstBranch] at h
    by_cases hb : p.isBranch = true
    · rw [if_pos hb] at h
      simp only [Option.some.injEq, Prod.mk.injEq] at h
      rw [← h.2.1]
      exact hb
    · rw [if_neg hb] at h
      rcases hs : splitAtFirstBranch rest with _ | ⟨⟨pre2, c2, post2⟩⟩
      · rw [hs] at h; simp at h
      · rw [hs] at h
        simp only [Option.some.injEq, Prod.mk.injEq] at h
        rw [← h.2.1]
        exact ih pre2 c2 post2 hs

/-- Branch splitting commutes with a leaf-preserving leaf update. -/
theorem split_mapLeaves (f : Pattern → Pattern)
    (hf : ∀ x, x.isBranch = false → (f x).isBranch = false) :
    ∀ l : List Pattern,
      splitAtFirstBranch (l.map (Pattern.mapLeaves f)) =
        (match splitAtFirstBranch l with
         | none => none
         | some (pre, c, post) =>
           some (pre.map (Pattern.mapLeaves f), Pattern.mapLeaves f c,
             post.map (Pattern.mapLeaves f))) := by
  intro l
  induction l with
  | nil => rfl
  | cons p rest ih =>
    simp only [List.map_cons, splitAtFirstBranch, isBranch_mapLeaves f hf]
    by_cases hb : p.isBranch = true
    · rw [if_pos hb, if_pos hb]
      rfl
    · rw [if_neg hb, if_neg hb, ih]
      rcases hs : splitAtFirstBranch rest with _ | ⟨⟨pre, c, post⟩⟩ <;> simp

/-- The `transform` work-list loop commutes with a leaf-preserving leaf
update applied pointwise to every group. -/
theorem transformLoop_map (f : Pattern → Pattern)
    (hf : ∀ x, x.isBranch = false → (f x).isBranch = false) :
    ∀ (fuel : Nat) (groups result : List (List Pattern)),
      transformLoop fuel (groups.map (List.map (Pattern.mapLeaves f)))
          (result.map (List.map (Pattern.mapLeaves f))) =
        (transformLoop fuel groups result).map (List.map (Pattern.mapLeaves f)) := by
  intro fuel
  induction fuel with
  | zero => intro groups result; rfl
  | succ fuel ih =>
    intro groups result
    cases groups with
    | nil => rfl
    | cons children gs =>
      simp only [List.map_cons, transformLoop, split_mapLeaves f hf]
      rcases hs : splitAtFirstBranch children with _ | ⟨⟨pre, c, post⟩⟩
      · simp only []
        rw [show (result.map (List.map (Pattern.mapLeaves f))) ++
            [children.map (Pattern.mapLeaves f)] =
            (result ++ [children]).map (List.map (Pattern.mapLeaves f)) from by
          simp]
        exact ih gs (result ++ [children])
      · simp only []
        have hcb := split_branch children pre c post hs
        cases c with
        | argument n v => simp [Pattern.isBranch] at hcb
        | command n v => simp [Pattern.isBranch] at hcb
        | option o => simp [Pattern.isBranch] at hcb
        | required cs =>
          simp only [Pattern.mapLeaves, toList_mapLeavesList]
          rw [show (gs.map (List.map (Pattern.mapLeaves f))) ++
              [cs.toList.map (Pattern.mapLeaves f) ++
                (pre.map (Pattern.mapLeaves f) ++ post.map (Pattern.mapLeaves f))] =
              (gs ++ [cs.toList ++ (pre ++ post)]).map
                (List.map (Pattern.mapLeaves f)) from by simp]
          exact ih (gs ++ [cs.toList ++ (pre ++ post)]) result
        | optional cs =>
          simp only [Pattern.mapLeaves, toList_mapLeavesList]
          rw [show (gs.map (List.map (Pattern.mapLeaves f))) ++
              [cs.toList.map (Pattern.mapLeaves f) ++
                (pre.map (Pattern.mapLeaves f) ++ post.map (Pattern.mapLeaves f))] =
              (gs ++ [cs.toList ++ (pre ++ post)]).map
                (List.map (Pattern.mapLeaves f)) from by simp]
          exact ih (gs ++ [cs.toList ++ (pre ++ post)]) result
        | optionsShortcut cs =>
          simp only [Pattern.mapLeaves, toList_mapLeavesList]
          rw [show (gs.map (List.map (Pattern.mapLeaves f))) ++
              [cs.toList.map (Pattern.mapLeaves f) ++
                (pre.map (Pattern.mapLeaves f) ++ post.map (Pattern.mapLeaves f))] =
              (gs ++ [cs.toList ++ (pre ++ post)]).map
                (List.map (Pattern.mapLeaves f)) from by simp]
          exact ih (gs ++ [cs.toList ++ (pre ++ post)]) result
        | oneOrMore cs =>
          simp only [Pattern.mapLeaves, toList_mapLeavesList]
          rw [show (gs.map (List.map (Pattern.mapLeaves f))) ++
              [cs.toList.map (Pattern.mapLeaves f) ++
                cs.toList.map (Pattern.mapLeaves f) ++
                (pre.map (Pattern.mapLeaves f) ++ post.map (Pattern.mapLeaves f))] =
              (gs ++ [cs.toList ++ cs.toList ++ (pre ++ post)]).map
                (List.map (Pattern.mapLeaves f)) from by simp]
          exact ih (gs ++ [cs.toList ++ cs.toList ++ (pre ++ post)]) result
        | either cs =>
          simp only [Pattern.mapLeaves, toList_mapLeavesList]
          rw [show (gs.map (List.map (Pattern.mapLeaves f))) ++
              (cs.toList.map (Pattern.mapLeaves f)).map
                (fun c => c :: (pre.map (Pattern.mapLeaves f) ++
                  post.map (Pattern.mapLeaves f))) =
              (gs ++ cs.toList.map (fun c => c :: (pre ++ post))).map
                (List.map (Pattern.mapLeaves f)) from by
            simp [List.map_map, Function.comp]]
          exact ih (gs ++ cs.toList.map (fun c => c :: (pre ++ post))) result

/-- The disjunctive-normal-form cases of an updated tree are the pointwise
updated cases of the original tree. -/
theorem dnf_mapLeaves (f : Pattern → Pattern)
    (hf : ∀ x, x.isBranch = false → (f x).isBranch = false) (p : Pattern) :
    dnfCases (Pattern.mapLeaves f p) =
      (dnfCases p).map (List.map (Pattern.mapLeaves f)) := by
  show transformLoop ((Pattern.mapLeaves f p).nu + 1) [[Pattern.mapLeaves f p]] [] = _
  rw [nu_mapLeaves f hf p]
  rw [show [[Pattern.mapLeaves f p]] = [[p]].map (List.map (Pattern.mapLeaves f)) from by
    simp]
  rw [show ([] : List (List Pattern)) = ([] : List (List Pattern)).map
    (List.map (Pattern.mapLeaves f)) from rfl]
  exact transformLoop_map f hf (p.nu + 1) [[p]] []

/-- The loop only ever moves branch-free groups to the result. -/
theorem result_members_leaf :
    ∀ (fuel : Nat) (groups result : List (List Pattern)),
      (∀ case ∈ result, ∀ z ∈ case, z.isBranch = false) →
      ∀ case ∈ transformLoop fuel groups result, ∀ z ∈ case, z.isBranch = false := by
  intro fuel
  induction fuel with
  | zero => intro groups result hres; exact hres
  | succ fuel ih =>
    intro groups result hres
    cases groups with
    | nil => exact hres
    | cons children gs =>
      simp only [transformLoop]
      rcases hs : splitAtFirstBranch children with _ | ⟨⟨pre, c, post⟩⟩
      · refine ih gs (result ++ [children]) ?_
        intro case hc z hz
        rcases List.mem_append.mp hc with hc | hc
        · exact hres case hc z hz
        · rw [List.mem_singleton.mp hc] at hz
          exact split_none_leaves children hs z hz
      · cases c with
        | argument n v => exact ih gs result hres
        | command n v => exact ih gs result hres
        | option o => exact ih gs result hres
        | required cs => exact ih _ result hres
        | optional cs => exact ih _ result hres
        | optionsShortcut cs => exact ih _ result hres
        | oneOrMore cs => exact ih _ result hres
        | either cs => exact ih _ result hres

/-- Every member of every expanded conjunctive alternative is a leaf. -/
theorem dnf_members_leaf (p : Pattern) :
    ∀ case ∈ dnfCases p, ∀ z ∈ case, z.isBranch = false :=
  result_members_leaf (p.nu + 1) [[p]] [] (by simp)

/-- When mapping makes an element occur twice although it occurred at most
once, some other element maps onto it. -/
theorem count_map_two (u : Pattern → Pattern) :
    ∀ (l : List Pattern) (y : Pattern), 2 ≤ (l.map u).count y → l.count y ≤ 1 →
      ∃ z ∈ l, z ≠ y ∧ u z = y := by
  intro l
  induction l with
  | nil => intro y h2 _; simp at h2
  | cons a l ih =>
    intro y h2 h1
    by_cases hua : u a = y
    · by_cases hay : a = y
      · subst hay
        have hl1 : l.count a = 0 := by
          rw [List.count_cons_self] at h1
          omega
        have hml : 1 ≤ (l.map u).count a := by
          simp only [List.map_cons, hua, List.count_cons_self] at h2
          omega
        have hy : a ∈ l.map u := List.count_pos_iff.mp (by omega)
        obtain ⟨z, hz, hzy⟩ := List.mem_map.mp hy
        refine ⟨z, List.mem_cons_of_mem _ hz, ?_, hzy⟩
        intro hzeq
        subst hzeq
        have := List.count_pos_iff.mpr hz
        omega
      · exact ⟨a, by simp, hay, hua⟩
    · have h2' : 2 ≤ (l.map u).count y := by
        simp [List.count_cons, hua] at h2
        omega
      have h1' : l.count y ≤ 1 := by
        simp [List.count_cons] at h1
        omega
      obtain ⟨z, hz, hzy, hzu⟩ := ih y h2' h1'
      exact ⟨z, List.mem_cons_of_mem _ hz, hzy, hzu⟩

/-- Composition of leaf updates, the first one leaf-preserving. -/
theorem mapLeaves_comp (f g : Pattern → Pattern)
    (hf : ∀ x, x.isBranch = false → (f x).isBranch = false) :
    ∀ p : Pattern, Pattern.mapLeaves g (Pattern.mapLeaves f p) =
      Pattern.mapLeaves (fun x => g (f x)) p := by
  suffices H : ∀ (n : Nat) (p : Pattern), p.psize ≤ n →
      Pattern.mapLeaves g (Pattern.mapLeaves f p) =
        Pattern.mapLeaves (fun x => g (f x)) p from fun p => H p.psize p le_rfl
  intro n
  induction n with
  | zero => intro p hp; have := p.psize_pos; omega
  | succ n ih =>
    have hlist : ∀ cs : Patterns, (∀ q ∈ cs.toList, q.psize ≤ n) →
        Patterns.mapLeavesList g (Patterns.mapLeavesList f cs) =
          Patterns.mapLeavesList (fun x => g (f x)) cs := by
      intro cs
      induction cs with
      | hnil => intro _; rfl
      | hcons q qs ihq =>
        intro hmem
        simp only [Patterns.mapLeavesList]
        rw [ih q (hmem q (by simp [Patterns.toList])),
          ihq (fun r hr => hmem r (by simp [Patterns.toList, hr]))]
    intro p hp
    cases p with
    | argument nm v =>
      rw [mapLeaves_of_leaf f _ (by rfl), mapLeaves_of_leaf g _ (hf _ (by rfl))]
      rfl
    | command nm v =>
      rw [mapLeaves_of_leaf f _ (by rfl), mapLeaves_of_leaf g _ (hf _ (by rfl))]
      rfl
    | option o =>
      rw [mapLeaves_of_leaf f _ (by rfl), mapLeaves_of_leaf g _ (hf _ (by rfl))]
      rfl
    | required cs =>
      simp only [Pattern.mapLeaves]
      rw [hlist cs (fun q hq => by
        have h1 := Patterns.psize_le_of_mem hq
        have h2 : Pattern.psize (.required cs) = 1 + Patterns.psizeList cs := rfl
        omega)]
    | optional cs =>
      simp only [Pattern.mapLeaves]
      rw [hlist cs (fun q hq => by
        have h1 := Patterns.psize_le_of_mem hq
        have h2 : Pattern.psize (.optional cs) = 1 + Patterns.psizeList cs := rfl
        omega)]
    | optionsShortcut cs =>
      simp only [Pattern.mapLeaves]
      rw [hlist cs (fun q hq => by
        have h1 := Patterns.psize_le_of_mem hq
        have h2 : Pattern.psize (.optionsShortcut cs) = 1 + Patterns.psizeList cs := rfl
        omega)]
    | oneOrMore cs =>
      simp only [Pattern.mapLeaves]
      rw [hlist cs (fun q hq => by
        have h1 := Patterns.psize_le_of_mem hq
        have h2 : Pattern.psize (.oneOrMore cs) = 1 + Patterns.psizeList cs := rfl
        omega)]
    | either cs =>
      simp only [Pattern.mapLeaves]
      rw [hlist cs (fun q hq => by
        have h1 := Patterns.psize_le_of_mem hq
        have h2 : Pattern.psize (.either cs) = 1 + Patterns.psizeList cs := rfl
        omega)]

/-- Leaf updates agreeing on leaves produce the same tree. -/
theorem mapLeaves_congr (f g : Pattern → Pattern)
    (hfg : ∀ x : Pattern, x.isBranch = false → f x = g x) :
    ∀ p : Pattern, Pattern.mapLeaves f p = Pattern.mapLeaves g p := by
  suffices H : ∀ (n : Nat) (p : Pattern), p.psize ≤ n →
      Pattern.mapLeaves f p = Pattern.mapLeaves g p from fun p => H p.psize p le_rfl
  intro n
  induction n with
  | zero => intro p hp; have := p.psize_pos; omega
  | succ n ih =>
    have hlist : ∀ cs : Patterns, (∀ q ∈ cs.toList, q.psize ≤ n) →
        Patterns.mapLeavesList f cs = Patterns.mapLeavesList g cs := by
      intro cs
      induction cs with
      | hnil => intro _; rfl
      | hcons q qs ihq =>
        intro hmem
        simp only [Patterns.mapLeavesList]
        rw [ih q (hmem q (by simp [Patterns.toList])),
          ihq (fun r hr => hmem r (by simp [Patterns.toList, hr]))]
    intro p hp
    cases p with
    | argument nm v =>
      rw [mapLeaves_of_leaf f _ (by rfl), mapLeaves_of_leaf g _ (by rfl)]
      exact hfg _ (by rfl)
    | command nm v =>
      rw [mapLeaves_of_leaf f _ (by rfl), mapLeaves_of_leaf g _ (by rfl)]
      exact hfg _ (by rfl)
    | option o =>
      rw [mapLeaves_of_leaf f _ (by rfl), mapLeaves_of_leaf g _ (by rfl)]
      exact hfg _ (by rfl)
    | required cs =>
      simp only [Pattern.mapLeaves]
      rw [hlist cs (fun q hq => by
        have h1 := Patterns.psize_le_of_mem hq
        have h2 : Pattern.psize (.required cs) = 1 + Patterns.psizeList cs := rfl
        omega)]
    | optional cs =>
      simp only [Pattern.mapLeaves]
      rw [hlist cs (fun q hq => by
        have h1 := Patterns.psize_le_of_mem hq
        have h2 : Pattern.psize (.optional cs) = 1 + Patterns.psizeList cs := rfl
        omega)]
    | optionsShortcut cs =>
      simp only [Pattern.mapLeaves]
      rw [hlist cs (fun q hq => by
        have h1 := Patterns.psize_le_of_mem hq
        have h2 : Pattern.psize (.optionsShortcut cs) = 1 + Patterns.psizeList cs := rfl
        omega)]
    | oneOrMore cs =>
      simp only [Pattern.mapLeaves]
      rw [hlist cs (fun q hq => by
        have h1 := Patterns.psize_le_of_mem hq
        have h2 : Pattern.psize (.oneOrMore cs) = 1 + Patterns.psizeList cs := rfl
        omega)]
    | either cs =>
      simp only [Pattern.mapLeaves]
      rw [hlist cs (fun q hq => by
        have h1 := Patterns.psize_le_of_mem hq
        have h2 : Pattern.psize (.either cs) = 1 + Patterns.psizeList cs := rfl
        omega)]

/-- C9: normalization is idempotent: applying `fix` (identity unification,
which is the identity on the embedded tree, followed by repetition detection)
twice yields the same tree — hence the same accumulator typing and the same
leaf values — as applying it once. -/
theorem claim9_fix_idempotent (p : Pattern) : (Pattern.fix p).fix = Pattern.fix p := by
  have hu : ∀ x : Pattern, x.isBranch = false →
      ((fun y => if repeatedIn (dnfCases p) y = true then seedLeaf y else y) x).isBranch
        = false := by
    intro x hx
    by_cases hr : repeatedIn (dnfCases p) x = true
    · simp only [hr, if_true, seedLeaf_isBranch]; exact hx
    · simp only [hr, if_false]; exact hx
  show Pattern.mapLeaves
      (fun y => if repeatedIn (dnfCases (Pattern.mapLeaves
          (fun y => if repeatedIn (dnfCases p) y = true then seedLeaf y else y) p)) y
          = true
        then seedLeaf y else y)
      (Pattern.mapLeaves
        (fun y => if repeatedIn (dnfCases p) y = true then seedLeaf y else y) p) =
    Pattern.mapLeaves
      (fun y => if repeatedIn (dnfCases p) y = true then seedLeaf y else y) p
  rw [mapLeaves_comp _ _ hu p]
  apply mapLeaves_congr
  intro x hx
  by_cases hr : repeatedIn (dnfCases p) x = true
  · rw [if_pos hr]
    by_cases hr2 : repeatedIn (dnfCases (Pattern.mapLeaves
        (fun y => if repeatedIn (dnfCases p) y = true then seedLeaf y else y) p))
        (seedLeaf x) = true
    · rw [if_pos hr2, seedLeaf_idem]
    · rw [if_neg hr2]
  · rw [if_neg hr]
    by_cases hr2 : repeatedIn (dnfCases (Pattern.mapLeaves
        (fun y => if repeatedIn (dnfCases p) y = true then seedLeaf y else y) p))
        x = true
    · rw [if_pos hr2]
      rw [dnf_mapLeaves _ hu p] at hr2
      have hr2e : ((dnfCases p).map (List.map (Pattern.mapLeaves
          (fun y => if repeatedIn (dnfCases p) y = true then seedLeaf y
            else y)))).any
          (fun case => decide (2 ≤ case.count x)) = true := hr2
      rw [List.any_eq_true] at hr2e
      obtain ⟨case2, hc2, hcnt⟩ := hr2e
      have hcount := of_decide_eq_true hcnt
      obtain ⟨case, hcase, rfl⟩ := List.mem_map.mp hc2
      have hmap : case.map (Pattern.mapLeaves
          (fun y => if repeatedIn (dnfCases p) y = true then seedLeaf y else y)) =
          case.map (fun y => if repeatedIn (dnfCases p) y = true then seedLeaf y
            else y) := by
        apply List.map_congr_left
        intro z hz
        exact mapLeaves_of_leaf _ _ (dnf_members_leaf p case hcase z hz)
      rw [hmap] at hcount
      have hle : case.count x ≤ 1 := by
        have hfalse : (dnfCases p).any
            (fun case => decide (2 ≤ case.count x)) = false := by
          have hf2 : repeatedIn (dnfCases p) x = false := by simpa using hr
          exact hf2
        rw [List.any_eq_false] at hfalse
        have hnot := hfalse case hcase
        simp only [decide_eq_true_eq] at hnot
        omega
      obtain ⟨z, hzmem, hzne, hzu⟩ :=
        count_map_two _ case x hcount hle
      by_cases hz : repeatedIn (dnfCases p) z = true
      · rw [if_pos hz] at hzu
        rw [← hzu, seedLeaf_idem]
      · rw [if_neg hz] at hzu
        exact absurd hzu hzne
    · rw [if_neg hr2]

end Docopt
